import Mathlib

/-!
# Verification of the squirrel-lsp workspace / analyzer core

Shallow embedding of the workspace index, inheritance analysis, hook
validation and identifier checking of the `squirrel-lsp` language server
(`src/workspace.rs`, `src/bb_support.rs`, `src/symbol_resolver.rs`),
together with proofs of the specified properties.

The tree-sitter parse tree is embedded as the inductive `Node`: each node
carries the numeric id, kind string, source text, byte range, named fields
and children that the Rust code reads through the tree-sitter API
(`node.kind()`, `node.utf8_text(..)`, `node.start_byte()`,
`node.child_by_field_name(..)`, `node.children(..)`).  Producing such a tree
from source text is the job of the third-party parser and is outside the
embedded code: functions take the parsed tree as input, exactly as the Rust
functions do.
-/

namespace SquirrelLsp

mutual
/-- Embedded tree-sitter node: id, kind, source text, byte range, start
position (row, col), named fields, children.  Mirrors the data the Rust code
reads off `tree_sitter::Node` (`node.id()`, `node.kind()`,
`node.utf8_text(..)`, `node.start_byte()`, `node.end_byte()`,
`node.start_position()`, `node.child_by_field_name(..)`,
`node.children(..)`). -/
inductive Node where
  | mk (id : Nat) (kind : String) (text : String) (startB endB row col : Nat)
       (fields : NodeFields) (children : NodeList)

/-- The field-tagged children, as queried by `child_by_field_name`. -/
inductive NodeFields where
  | nil
  | cons (name : String) (node : Node) (rest : NodeFields)

/-- The child sequence, as iterated by `node.children(..)`. -/
inductive NodeList where
  | nil
  | cons (node : Node) (rest : NodeList)
end

def NodeList.toList : NodeList → List Node
  | .nil => []
  | .cons n rest => n :: rest.toList

def NodeFields.toList : NodeFields → List (String × Node)
  | .nil => []
  | .cons s n rest => (s, n) :: rest.toList

namespace Node

def id : Node → Nat | mk i _ _ _ _ _ _ _ _ => i
def kind : Node → String | mk _ k _ _ _ _ _ _ _ => k
def text : Node → String | mk _ _ t _ _ _ _ _ _ => t
def startB : Node → Nat | mk _ _ _ s _ _ _ _ _ => s
def endB : Node → Nat | mk _ _ _ _ e _ _ _ _ => e
def row : Node → Nat | mk _ _ _ _ _ r _ _ _ => r
def col : Node → Nat | mk _ _ _ _ _ _ c _ _ => c
def fields : Node → NodeFields | mk _ _ _ _ _ _ _ f _ => f
def children : Node → NodeList | mk _ _ _ _ _ _ _ _ c => c

/-- The children as a `List`, for the non-recursive per-node scans. -/
def childList (n : Node) : List Node := n.children.toList

/-- `node.child_by_field_name(name)`: first field with the given name. -/
def childByFieldName (n : Node) (name : String) : Option Node :=
  (n.fields.toList.find? (fun p => p.1 == name)).map Prod.snd

end Node

/-! ## Script-path strings

`normalize_script_path`, `extract_script_path` and `Path::file_stem`
(`src/workspace.rs:382-401`).  Rust's `trim_start_matches` /
`trim_end_matches` loop while the pattern is still a prefix / suffix; the
embeddings iterate on the character list with fuel `l.length`, which the
loop can never exhaust: every round removes at least four characters. -/

/-- Repeatedly strip a leading `"scripts/"`, as
`trim_start_matches("scripts/")` does. -/
def trimScriptsFuel : Nat → List Char → List Char
  | 0, l => l
  | fuel + 1, l =>
    if "scripts/".data.isPrefixOf l then trimScriptsFuel fuel (l.drop 8)
    else l

def trimScriptsL (l : List Char) : List Char := trimScriptsFuel l.length l

def trimScripts (s : String) : String := String.mk (trimScriptsL s.data)

/-- Repeatedly strip a trailing `".nut"`, as `trim_end_matches(".nut")`
does. -/
def trimNutFuel : Nat → List Char → List Char
  | 0, l => l
  | fuel + 1, l =>
    if ".nut".data.isSuffixOf l then trimNutFuel fuel (l.take (l.length - 4))
    else l

def trimNutL (l : List Char) : List Char := trimNutFuel l.length l

def trimNut (s : String) : String := String.mk (trimNutL s.data)

/-- `normalize_script_path` (`src/workspace.rs:397-401`): strip the
`scripts/` prefix and the `.nut` suffix. -/
def normalizeScriptPath (path : String) : String := trimNut (trimScripts path)

/-- First position where `"scripts/"` occurs in the character list, and the
remainder after it; mirrors `path_str.find("scripts/")` followed by taking
`&path_str[idx + 8..]` (`src/workspace.rs:384-394`). -/
def afterScripts : List Char → Option (List Char)
  | [] => none
  | c :: t =>
    if "scripts/".data.isPrefixOf (c :: t) then some ((c :: t).drop 8)
    else afterScripts t

/-- `extract_script_path` (`src/workspace.rs:384-394`): the part after the
first `scripts/`, with trailing `.nut` removed; `""` if the path does not
contain `scripts/`. -/
def extractScriptPath (filePath : String) : String :=
  match afterScripts filePath.data with
  | some rest => trimNut (String.mk rest)
  | none => ""

/-- Split a character list at `/`. -/
def splitOnSlash : List Char → List (List Char)
  | [] => [[]]
  | c :: t =>
    let r := splitOnSlash t
    if c = '/' then [] :: r
    else
      match r with
      | [] => [[c]]
      | h :: t' => (c :: h) :: t'

/-- Last `/`-separated component of a path. -/
def fileName (p : String) : String :=
  String.mk ((splitOnSlash p.data).getLastD [])

/-- `Path::file_stem().unwrap_or("")`: the file name up to (not including)
its final `.`, except that a leading `.` does not start an extension. -/
def fileStem (p : String) : String :=
  let n := (fileName p).data
  match n.reverse.dropWhile (fun c => c ≠ '.') with
  | [] => String.mk n
  | _ :: rest => if rest = [] then String.mk n else String.mk rest.reverse

/-! ## Workspace data model (`src/workspace.rs:15-64`)

`HashMap<String, FileEntry>` is embedded as an association list with
insert-or-replace; every state built by the embedded operations has
pairwise-distinct keys, and whenever iteration order could be observed
(`build_inheritance_graph`, value collections) the code's result does not
depend on it for any property proved here.  `HashSet<String>` is embedded
as a duplicate-free list with insert-if-absent. -/

inductive MemberType where
  | method
deriving DecidableEq, Repr

structure MemberInfo where
  name : String
  memberType : MemberType
  line : Nat
  column : Nat
deriving DecidableEq, Repr

structure FileEntry where
  filePath : String
  scriptPath : String
  name : String
  parentPath : Option String
  parent : Option String
  children : List String
  members : List MemberInfo
deriving DecidableEq, Repr

structure Workspace where
  files : List (String × FileEntry)
  globals : List String
deriving DecidableEq, Repr

def Workspace.empty : Workspace := ⟨[], []⟩

/-- `HashMap::get`: value at the key, if present. -/
def lookupKey (files : List (String × FileEntry)) (k : String) :
    Option FileEntry :=
  (files.find? (fun p => p.1 == k)).map Prod.snd

/-- `HashMap::insert`: replace the value at the key if present, else add the
binding. -/
def insertKey (files : List (String × FileEntry)) (k : String)
    (v : FileEntry) : List (String × FileEntry) :=
  if (files.find? (fun p => p.1 == k)).isSome then
    files.map (fun p => if p.1 == k then (k, v) else p)
  else
    files ++ [(k, v)]

/-- In-place update of the value at the key (`HashMap::get_mut` followed by
a mutation); no-op when the key is absent. -/
def updateKey (files : List (String × FileEntry)) (k : String)
    (f : FileEntry → FileEntry) : List (String × FileEntry) :=
  files.map (fun p => if p.1 == k then (p.1, f p.2) else p)

/-- Set insertion for `HashSet<String>`. -/
def insertName (s : List String) (x : String) : List String :=
  if x ∈ s then s else s ++ [x]

namespace Workspace

/-- `Workspace::get` (`src/workspace.rs:72-84`): exact match first, then
the normalized spelling. -/
def get (w : Workspace) (scriptPath : String) : Option FileEntry :=
  match lookupKey w.files scriptPath with
  | some e => some e
  | none => lookupKey w.files (normalizeScriptPath scriptPath)

/-- `Workspace::get_mut` (`src/workspace.rs:87-93`) used as an updater: the
lookup normalizes the path (no exact-first step). -/
def updateNormalized (w : Workspace) (scriptPath : String)
    (f : FileEntry → FileEntry) : Workspace :=
  { w with files := updateKey w.files (normalizeScriptPath scriptPath) f }

/-- `Workspace::contains` (`src/workspace.rs:96-98`). -/
def contains (w : Workspace) (scriptPath : String) : Bool :=
  (w.get scriptPath).isSome

/-- `Workspace::register_global` (`src/workspace.rs:106-108`). -/
def registerGlobal (w : Workspace) (name : String) : Workspace :=
  { w with globals := insertName w.globals name }

end Workspace

/-! ## Tree walkers (`src/bb_support.rs`, `src/helpers.rs`,
`src/workspace.rs`) -/

mutual
/-- `helpers::find_last_identifier` (`src/helpers.rs:108-126`): the last
identifier of an identifier / `deref_expression` chain. -/
def findLastIdentifier (n : Node) : Option Node :=
  match n with
  | .mk _ _ _ _ _ _ _ _ ch =>
    if n.kind == "identifier" then some n
    else if n.kind == "deref_expression" then
      findLastIdentifierScan ch none
    else none

/-- The `last`-accumulating loop over the children in
`find_last_identifier`. -/
def findLastIdentifierScan : NodeList → Option Node → Option Node
  | .nil, last => last
  | .cons child rest, last =>
    findLastIdentifierScan rest
      (if child.kind == "identifier" then some child
       else if child.kind == "deref_expression" then
         match findLastIdentifier child with
         | some deeper => some deeper
         | none => last
       else last)
end

/-- `helpers::extract_identifier_name` (`src/helpers.rs:99-101`). -/
def extractIdentifierName (n : Node) : Option String :=
  (findLastIdentifier n).map Node.text

/-- `helpers::extract_string_content` (`src/helpers.rs:79-92`): text of a
`string_content` child, else the node text with surrounding quotes
removed. -/
def extractStringContent (n : Node) : String :=
  match n.childList.find? (fun c => c.kind == "string_content") with
  | some c => c.text
  | none =>
    let s := n.text
    if "\x22".data.isPrefixOf s.data && "\x22".data.isSuffixOf s.data
        && s.length ≥ 2 then
      (s.drop 1).dropRight 1
    else s

/-- Pattern `identifier <- inherit("path", { body })`
(`src/bb_support.rs:8-15`). -/
structure InheritCall where
  className : String
  parentPath : String
  parentPathNode : Node
  classBody : Node

/-- Scan of the `call_expression` children in `parse_inherit_call`
(`src/bb_support.rs:69-120`): detects the `inherit` callee, the first
string argument and the last table argument. -/
def parseInheritCall (call : Node) : Option (String × Node × Node) :=
  let st := call.childList.foldl
    (fun (st : Bool × String × Option Node × Option Node) child =>
      let (isInh, pp, pathNode, bodyNode) := st
      if child.kind == "identifier" then
        (isInh || child.text == "inherit", pp, pathNode, bodyNode)
      else if child.kind == "deref_expression" then
        (isInh ||
          (match findLastIdentifier child with
           | some l => l.text == "inherit"
           | none => false),
         pp, pathNode, bodyNode)
      else if child.kind == "call_args" then
        child.childList.foldl
          (fun (st : Bool × String × Option Node × Option Node) arg =>
            let (isInh, pp, pathNode, bodyNode) := st
            if arg.kind == "string" then
              match pathNode with
              | some _ => (isInh, pp, pathNode, bodyNode)
              | none => (isInh, extractStringContent arg, some arg, bodyNode)
            else if arg.kind == "table" then
              (isInh, pp, pathNode, some arg)
            else (isInh, pp, pathNode, bodyNode))
          (isInh, pp, pathNode, bodyNode)
      else st)
    (false, "", none, none)
  match st with
  | (true, pp, some pn, some bn) => some (pp, pn, bn)
  | _ => none

/-- The `update_expression` handling in `find_inherit_calls`
(`src/bb_support.rs:27-57`): first identifier-ish child names the class,
`<-` marks a new slot, the last `call_expression` child is the candidate
call. -/
def inheritOfUpdate (node : Node) : Option InheritCall :=
  let st := node.childList.foldl
    (fun (st : String × Bool × Option Node) child =>
      let (cn, ns, ce) := st
      if (child.kind == "identifier" || child.kind == "deref_expression")
          && cn == "" then
        (match extractIdentifierName child with
         | some nm => nm
         | none => cn, ns, ce)
      else if child.kind == "<-" then (cn, true, ce)
      else if child.kind == "call_expression" then (cn, ns, some child)
      else st)
    ("", false, none)
  match st with
  | (cn, true, some call) =>
    if cn == "" then none
    else
      match parseInheritCall call with
      | some (pp, pn, bn) =>
        some { className := cn, parentPath := pp, parentPathNode := pn,
               classBody := bn }
      | none => none
  | _ => none

mutual
/-- `find_inherit_calls` (`src/bb_support.rs:17-67`): pre-order walk
collecting every matching `update_expression`. -/
def findInheritCalls (n : Node) : List InheritCall :=
  match n with
  | .mk _ _ _ _ _ _ _ _ ch =>
    (if n.kind == "update_expression" then (inheritOfUpdate n).toList
     else []) ++ findInheritCallsInList ch

def findInheritCallsInList : NodeList → List InheritCall
  | .nil => []
  | .cons c rest => findInheritCalls c ++ findInheritCallsInList rest
end

/-- A member access `base.member` (`src/bb_support.rs:532-537`). -/
structure MemberAccess where
  base : String
  memberName : String
  memberNode : Node

/-- The `deref_expression` handling in `find_member_accesses`
(`src/bb_support.rs:549-575`): first identifier child is the base, every
later identifier child overwrites the member. -/
def accessOfDeref (node : Node) : Option MemberAccess :=
  let st := node.childList.foldl
    (fun (st : String × String × Option Node) child =>
      let (base, mname, mnode) := st
      if child.kind == "identifier" then
        if base == "" then (child.text, mname, mnode)
        else (base, child.text, some child)
      else st)
    ("", "", none)
  match st with
  | (base, mname, some mnode) =>
    if base == "" || mname == "" then none
    else some { base := base, memberName := mname, memberNode := mnode }
  | _ => none

mutual
/-- `find_member_accesses` (`src/bb_support.rs:539-584`): pre-order walk
collecting every matching `deref_expression`. -/
def findMemberAccesses (n : Node) : List MemberAccess :=
  match n with
  | .mk _ _ _ _ _ _ _ _ ch =>
    (if n.kind == "deref_expression" then (accessOfDeref n).toList
     else []) ++ findMemberAccessesInList ch

def findMemberAccessesInList : NodeList → List MemberAccess
  | .nil => []
  | .cons c rest => findMemberAccesses c ++ findMemberAccessesInList rest
end

/-- A member record built from a name node (`src/workspace.rs:492-499`):
the node's text and start position. -/
def memberOfNameNode (nn : Node) : MemberInfo :=
  { name := nn.text, memberType := .method, line := nn.row, column := nn.col }

/-- The `function_declaration` handling in `extract_members_from_table`
(`src/workspace.rs:491-513`): the `name` field if present, else the first
identifier child. -/
def funcDeclMembers (child : Node) : List MemberInfo :=
  match child.childByFieldName "name" with
  | some nameNode => [memberOfNameNode nameNode]
  | none =>
    match child.childList.find? (fun c => c.kind == "identifier") with
    | some c => [memberOfNameNode c]
    | none => []

/-- The `table_slot` handling in `extract_members_from_table`
(`src/workspace.rs:515-560`): a function-valued `key = …` slot contributes
the key; a slot without a `key` field contributes the name of each
`function_declaration` child. -/
def tableSlotMembers (child : Node) : List MemberInfo :=
  match child.childByFieldName "key" with
  | some key =>
    let isFunction :=
      match child.childByFieldName "value" with
      | some v =>
        v.kind == "lambda_expression" || v.kind == "function_declaration"
      | none => false
    if isFunction then [memberOfNameNode key] else []
  | none =>
    ((child.childList.filter (fun c => c.kind == "function_declaration")).map
      funcDeclMembers).flatten

mutual
/-- `extract_members_from_table` (`src/workspace.rs:486-568`): collect
method members, descending into children that are neither
`function_declaration` nor `table_slot`. -/
def extractMembersFromTable (n : Node) : List MemberInfo :=
  match n with
  | .mk _ _ _ _ _ _ _ _ ch => extractMembersFromList ch

def extractMembersFromList : NodeList → List MemberInfo
  | .nil => []
  | .cons child rest =>
    (if child.kind == "function_declaration" then funcDeclMembers child
     else if child.kind == "table_slot" then tableSlotMembers child
     else extractMembersFromTable child) ++ extractMembersFromList rest
end

/-- The per-`update_expression` scan in `Workspace::extract_globals`
(`src/workspace.rs:312-331`): a `<-` child makes it a new-slot, the first
identifier child is the global name. -/
def globalOfUpdate (child : Node) : Option String :=
  if child.childList.any (fun c => c.kind == "<-") then
    (child.childList.find? (fun c => c.kind == "identifier")).map Node.text
  else none

/-- The names `Workspace::extract_globals` registers: one per top-level
`update_expression` with a `<-` child and an identifier child. -/
def extractGlobalNames (root : Node) : List String :=
  root.childList.filterMap
    (fun child =>
      if child.kind == "update_expression" then globalOfUpdate child
      else none)

/-- `Workspace::extract_globals` (`src/workspace.rs:312-331`). -/
def Workspace.extractGlobals (w : Workspace) (root : Node) : Workspace :=
  (extractGlobalNames root).foldl Workspace.registerGlobal w

/-- The `update_expression` check in `find_global_table::search_node`
(`src/workspace.rs:415-438`): new-slot with first identifier equal to the
file stem and a table child (the last `table` child wins). -/
def globalTableOfUpdate (child : Node) (stem : String) :
    Option (String × Node) :=
  let hasNS := child.childList.any (fun c => c.kind == "<-")
  let name? := (child.childList.find? (fun c => c.kind == "identifier")).map
    Node.text
  let table? := (child.childList.filter (fun c => c.kind == "table")).getLast?
  match name?, table? with
  | some name, some tbl =>
    if hasNS && name == stem then some (name, tbl) else none
  | _, _ => none

mutual
/-- `find_global_table::search_node` (`src/workspace.rs:410-447`): first
matching `update_expression` among the children, descending only into
`ERROR` children. -/
def searchGlobalTable (n : Node) (stem : String) : Option (String × Node) :=
  match n with
  | .mk _ _ _ _ _ _ _ _ ch => searchGlobalTableList ch stem

def searchGlobalTableList : NodeList → String → Option (String × Node)
  | .nil, _ => none
  | .cons child rest, stem =>
    match
      (if child.kind == "update_expression" then
        globalTableOfUpdate child stem
      else if child.kind == "ERROR" then searchGlobalTable child stem
      else none) with
    | some r => some r
    | none => searchGlobalTableList rest stem
end

/-- `find_global_table` (`src/workspace.rs:405-483`): the `ERROR`-root
special case (any `table` or `{` child, first wins) is tried before the
regular search. -/
def findGlobalTable (root : Node) (stem : String) : Option (String × Node) :=
  let fromError :=
    if root.kind == "ERROR" then
      let hasNS := root.childList.any (fun c => c.kind == "<-")
      let name? := (root.childList.find? (fun c => c.kind == "identifier")).map
        Node.text
      let table? := root.childList.find?
        (fun c => c.kind == "table" || c.kind == "\x7b")
      match name?, table? with
      | some name, some _ =>
        if hasNS && name == stem then some (name, root) else none
      | _, _ => none
    else none
  match fromError with
  | some r => some r
  | none => searchGlobalTable root stem

/-! ## Ancestors and members (`src/workspace.rs:116-223`) -/

/-- The `while` loop of `Workspace::get_ancestors`
(`src/workspace.rs:199-223`).  Fuel argument: every recursive step inserts
into `visited` a string not yet in it, and that string is the `parent`
field of an entry of `w`; there are at most `w.files.length` distinct such
values, so the Rust loop runs at most `w.files.length` steps past the
first and fuel `w.files.length + 1` is never exhausted. -/
def Workspace.getAncestorsAux (w : Workspace) :
    Nat → String → List String → List FileEntry → List FileEntry
  | 0, _, _, acc => acc
  | fuel + 1, current, visited, acc =>
    match w.get current with
    | none => acc
    | some e =>
      match e.parent with
      | none => acc
      | some pp =>
        if pp ∈ visited then acc
        else
          match w.get pp with
          | some pe =>
            w.getAncestorsAux fuel pp (visited ++ [pp]) (acc ++ [pe])
          | none => acc

/-- `Workspace::get_ancestors` (`src/workspace.rs:199-223`). -/
def Workspace.getAncestors (w : Workspace) (scriptPath : String) :
    List FileEntry :=
  w.getAncestorsAux (w.files.length + 1) scriptPath [] []

/-- `member_map.insert(member.name, member)` in `get_all_members`:
insert-or-replace keyed by name. -/
def mapInsertMember (m : List (String × MemberInfo)) (mem : MemberInfo) :
    List (String × MemberInfo) :=
  if (m.find? (fun p => p.1 == mem.name)).isSome then
    m.map (fun p => if p.1 == mem.name then (p.1, mem) else p)
  else m ++ [(mem.name, mem)]

/-- `Workspace::get_all_members` (`src/workspace.rs:116-139`): walk the
file and its ancestors parent-to-child, overriding by name.  The Rust
`HashMap::into_values` order is unspecified; the embedding returns
insertion order — downstream code only tests name membership. -/
def Workspace.getAllMembers (w : Workspace) (scriptPath : String) :
    List MemberInfo :=
  let pathsToCheck :=
    scriptPath :: (w.getAncestors scriptPath).map FileEntry.scriptPath
  let memberMap := pathsToCheck.reverse.foldl
    (fun acc path =>
      match w.get path with
      | some entry => entry.members.foldl mapInsertMember acc
      | none => acc)
    []
  memberMap.map Prod.snd

/-- `Workspace::has_method` (`src/workspace.rs:142-147`). -/
def Workspace.hasMethod (w : Workspace) (scriptPath methodName : String) :
    Bool :=
  (w.getAllMembers scriptPath).any
    (fun m => m.name == methodName && m.memberType == .method)

/-- Modelled from the spec: `Workspace::has_member` is called from
`validate_hook_methods` (`src/bb_support.rs:314`) and the integration
tests, but no definition exists under `src/`.  The spec's hook-method rule
uses `has_method(target, M)`: "true iff `method_name` appears in the
file's own `members` or in any ancestor's `members`". -/
def Workspace.hasMember (w : Workspace) (scriptPath memberName : String) :
    Bool :=
  w.hasMethod scriptPath memberName

/-- `levenshtein_distance` (`src/workspace.rs:571-595`) is the
Wagner–Fischer dynamic program; its matrix entries satisfy exactly this
textbook recurrence, embedded directly. -/
def levAux : List Char → List Char → Nat
  | [], t => t.length
  | a :: s, [] => (a :: s).length
  | a :: s, b :: t =>
    min (levAux s (b :: t) + 1)
      (min (levAux (a :: s) t + 1)
        (levAux s t + (if a == b then 0 else 1)))
termination_by s t => s.length + t.length

def levenshteinDistance (s1 s2 : String) : Nat := levAux s1.data s2.data

/-- `Workspace::find_similar_methods` (`src/workspace.rs:355-379`): the
three closest method names whose distance is below half the target's byte
length (`sort_by_key` is stable, as is `mergeSort`). -/
def Workspace.findSimilarMethods (w : Workspace) (scriptPath target : String) :
    List String :=
  let methods := ((w.getAllMembers scriptPath).filter
    (fun m => m.memberType == .method)).map MemberInfo.name
  let candidates := methods.map
    (fun name => (name, levenshteinDistance target name))
  let sorted := candidates.mergeSort (fun a b => a.2 ≤ b.2)
  ((sorted.take 3).filter
    (fun p => p.2 < target.utf8ByteSize / 2)).map Prod.fst

/-! ## Indexing and graph building (`src/workspace.rs:231-309`) -/

/-- `Workspace::index_file` (`src/workspace.rs:231-281`).  The function
takes the parsed tree; `helpers::parse_squirrel` (the third-party parser)
runs before this logic and its failure short-circuits with `Err`, touching
nothing, so totality over trees loses no behaviour. -/
def Workspace.indexFile (w : Workspace) (filePath : String) (root : Node) :
    Workspace :=
  let scriptPath := extractScriptPath filePath
  if scriptPath == "" then w
  else
    let w1 :=
      match findInheritCalls root with
      | ic :: _ =>
        let parentPath := normalizeScriptPath ic.parentPath
        { w with files := (insertKey w.files scriptPath
            { filePath := filePath, scriptPath := scriptPath,
              name := ic.className, parentPath := some parentPath,
              parent := none, children := [],
              members := extractMembersFromTable ic.classBody }) }
      | [] =>
        match findGlobalTable root (fileStem filePath) with
        | some (name, tableNode) =>
          { w with files := (insertKey w.files scriptPath
              { filePath := filePath, scriptPath := scriptPath,
                name := name, parentPath := none, parent := none,
                children := [],
                members := extractMembersFromTable tableNode }) }
        | none => w
    w1.extractGlobals root

/-- One iteration of the `for script_path in script_paths` loop in
`Workspace::build_inheritance_graph` (`src/workspace.rs:287-308`). -/
def Workspace.buildStep (w : Workspace) (scriptPath : String) : Workspace :=
  match lookupKey w.files scriptPath with
  | none => w
  | some e =>
    match e.parentPath with
    | none => w
    | some pp =>
      let normalizedParent := normalizeScriptPath pp
      if w.contains normalizedParent then
        let w1 := { w with files := (updateKey w.files scriptPath
          (fun en => { en with parent := some normalizedParent })) }
        w1.updateNormalized normalizedParent
          (fun pe =>
            if scriptPath ∈ pe.children then pe
            else { pe with children := pe.children ++ [scriptPath] })
      else w

/-- `Workspace::build_inheritance_graph` (`src/workspace.rs:284-309`):
the keys are collected up front, then each is processed in turn. -/
def Workspace.buildInheritanceGraph (w : Workspace) : Workspace :=
  (w.files.map Prod.fst).foldl Workspace.buildStep w

/-- The workspace-mutating operations a client can perform. -/
inductive Op where
  | indexFile (filePath : String) (root : Node)
  | build

def applyOp (w : Workspace) : Op → Workspace
  | .indexFile p r => w.indexFile p r
  | .build => w.buildInheritanceGraph

def runOps (w : Workspace) (ops : List Op) : Workspace :=
  ops.foldl applyOp w

/-- Workspace states reachable from the empty workspace by `index_file`
and `build_inheritance_graph` calls. -/
def Reachable (w : Workspace) : Prop :=
  ∃ ops : List Op, runOps Workspace.empty ops = w

/-! ## Diagnostics (`src/bb_support.rs`, `src/symbol_resolver.rs`)

LSP `Range`s are produced from byte offsets through
`helpers::position_at`; the embedding keeps the `(start_byte, end_byte)`
pair the Rust code feeds into that conversion. -/

inductive Severity where
  | error
  | warning
  | hint
deriving DecidableEq, Repr

structure Diagnostic where
  range : Nat × Nat
  severity : Severity
  source : String
  message : String
  code : Option String
deriving DecidableEq, Repr

/-- `str::strip_prefix("scripts/")` (a single removal, unlike
`trim_start_matches`) with `unwrap_or(original)`
(`src/bb_support.rs:441-444` and `483-486`). -/
def stripScriptsOnce (s : String) : String :=
  if "scripts/".data.isPrefixOf s.data then s.drop 8 else s

/-- The `". Did you mean: …?"` suffix appended to not-found messages when
there are suggestions (`src/bb_support.rs:327-331`). -/
def suggestionSuffix (suggestions : List String) : String :=
  if suggestions.isEmpty then ""
  else ". Did you mean: " ++ String.intercalate ", " suggestions ++ "?"

/-- A hook call as produced by `parse_hook_call`
(`src/bb_support.rs:131-139`). -/
structure HookCall where
  targetPath : String
  targetPathNode : Node
  hookFunction : Node
  hookParamName : Option String

/-- The diagnostic pushed for one failing member access in
`validate_hook_methods` (`src/bb_support.rs:315-342`). -/
def hookMethodDiag (w : Workspace) (targetPath targetName : String)
    (access : MemberAccess) : Diagnostic :=
  { range := (access.memberNode.startB, access.memberNode.endB),
    severity := .error,
    source := "squirrel-bb-hook",
    message := "Method '" ++ access.memberName ++ "' not found in '"
      ++ targetName ++ "' or its ancestors"
      ++ suggestionSuffix (w.findSimilarMethods targetPath access.memberName),
    code := some "method-not-found" }

/-- `validate_hook_methods` (`src/bb_support.rs:293-348`). -/
def validateHookMethods (hook : HookCall) (w : Workspace) :
    List Diagnostic :=
  match w.get hook.targetPath with
  | none => []
  | some targetEntry =>
    match hook.hookParamName with
    | none => []
    | some paramName =>
      (findMemberAccesses hook.hookFunction).foldl
        (fun diags access =>
          if access.base == paramName then
            if access.memberName == "SuperName" then diags
            else if !(w.hasMember hook.targetPath access.memberName) then
              diags ++ [hookMethodDiag w hook.targetPath targetEntry.name
                access]
            else diags
          else diags)
        []

/-- `check_circular_inheritance` (`src/bb_support.rs:475-530`). -/
def checkCircularInheritance (inh : InheritCall) (w : Workspace) :
    List Diagnostic :=
  let lookupPath := stripScriptsOnce inh.parentPath
  match w.get lookupPath with
  | none => []
  | some parentEntry =>
    let ancestors := w.getAncestors lookupPath
    let range := (inh.parentPathNode.startB, inh.parentPathNode.endB)
    if parentEntry.name == inh.className then
      [{ range := range, severity := .error, source := "squirrel-inherit",
         message := "'" ++ inh.className ++ "' cannot inherit from itself",
         code := some "circular-inheritance" }]
    else if ancestors.any (fun a => a.name == inh.className) then
      [{ range := range, severity := .error, source := "squirrel-inherit",
         message := "Circular inheritance detected: '" ++ inh.className
           ++ "' appears in its own ancestor chain",
         code := some "circular-inheritance" }]
    else []

/-! ## Identifier checking (`src/symbol_resolver.rs`) -/

/-- The `BUILTINS` set (`src/symbol_resolver.rs:17-50`). -/
def BUILTINS : List String :=
  ["array", "assert", "callee", "clone", "collectgarbage", "compilestring",
   "enabledebuginfo", "error", "format", "getconsttable", "getroottable",
   "getstackinfos", "newthread", "print", "regexp", "resurrectunreachable",
   "setconsttable", "setdebughook", "seterrorhandler", "setroottable",
   "suspend", "throw", "type", "typeof", "this", "Math", "inherit"]

/-- `ResolverContext` (`src/symbol_resolver.rs:67-73`); `declarations`
carry data the checker never reads and are omitted here. -/
structure ResolverContext where
  locals : List String
  references : List String
  hasParent : Bool
deriving DecidableEq, Repr

/-- An identifier occurrence together with the tree context the checker
inspects: the parent node and the previous sibling (both derived from the
tree in Rust, supplied here as input). -/
structure IdentSite where
  node : Node
  parent : Option Node
  prevSibling : Option Node

/-- `find_first_identifier` (`src/symbol_resolver.rs:792-795`): first
identifier child. -/
def findFirstIdentifier (n : Node) : Option Node :=
  n.childList.find? (fun c => c.kind == "identifier")

/-- `should_skip_identifier` (`src/symbol_resolver.rs:658-711`). -/
def shouldSkipIdentifier (site : IdentSite) : Bool :=
  match site.parent with
  | none => false
  | some parent =>
    let parentKind := parent.kind
    if (parentKind == "local_declaration" || parentKind == "var_statement"
        || parentKind == "const_declaration"
        || parentKind == "function_declaration"
        || parentKind == "class_declaration" || parentKind == "parameter"
        || parentKind == "table_slot" || parentKind == "enum_declaration")
        && (match findFirstIdentifier parent with
            | some first => first.id == site.node.id
            | none => false) then
      true
    else if parentKind == "deref_expression"
        && (match site.prevSibling with
            | some prev => prev.kind == "." || prev.kind == "::"
            | none => false) then
      true
    else if parentKind == "global_variable" then true
    else if parentKind == "update_expression" then
      let st := parent.childList.foldl
        (fun (st : Bool × Bool) child =>
          let (isFirst, hasNS) := st
          let isFirst' :=
            if child.kind == "identifier" && !isFirst then
              child.id == site.node.id
            else isFirst
          (isFirst', hasNS || child.kind == "<-"))
        (false, false)
      st.1 && st.2
    else false

/-- The child scan in `is_function_call`
(`src/symbol_resolver.rs:713-727`): the first identifier child decides;
`call_args` stops the scan. -/
def calleeScan (nodeId : Nat) : List Node → Bool
  | [] => false
  | c :: rest =>
    if c.kind == "identifier" then c.id == nodeId
    else if c.kind == "call_args" then false
    else calleeScan nodeId rest

/-- `is_function_call` (`src/symbol_resolver.rs:713-727`). -/
def isFunctionCall (site : IdentSite) : Bool :=
  match site.parent with
  | some parent =>
    parent.kind == "call_expression" && calleeScan site.node.id
      parent.childList
  | none => false

/-- `check_identifier` (`src/symbol_resolver.rs:621-656`): returns the
updated context and the diagnostics pushed. -/
def checkIdentifier (knownGlobals : Option (List String))
    (site : IdentSite) (ctx : ResolverContext) :
    ResolverContext × List Diagnostic :=
  if shouldSkipIdentifier site then (ctx, [])
  else
    let name := site.node.text
    if name ∈ BUILTINS then (ctx, [])
    else if name ∈ ctx.locals then
      ({ ctx with references := insertName ctx.references name }, [])
    else if (match knownGlobals with
             | some g => decide (name ∈ g)
             | none => false) then (ctx, [])
    else if ctx.hasParent && isFunctionCall site then (ctx, [])
    else
      (ctx,
       [{ range := (site.node.startB, site.node.endB), severity := .error,
          source := "squirrel-semantic",
          message := "Undeclared variable '" ++ name ++ "'",
          code := none }])

/-! ## Proof-support definitions -/

/-- One parent-link step: the `parent` field of the entry `get` resolves. -/
def parentStep (w : Workspace) (s : String) : Option String :=
  (w.get s).bind FileEntry.parent

/-- Iterated parent links starting from `s`. -/
def parentIter (w : Workspace) (s : String) : Nat → Option String
  | 0 => some s
  | n + 1 =>
    match parentStep w s with
    | some t => parentIter w t n
    | none => none

/-- The map keys are pairwise distinct (true of every `HashMap`, and of
every state the embedded operations build). -/
def nodupKeys (w : Workspace) : Prop := (w.files.map Prod.fst).Nodup

/-- Every entry is stored under its own `script_path` (established by
`index_file`, preserved by every operation). -/
def keyConsistent (w : Workspace) : Prop :=
  ∀ p ∈ w.files, p.2.scriptPath = p.1

/-- A resolved `parent` always comes from normalizing the entry's own raw
`parent_path` (established by `index_file` + `build_inheritance_graph`). -/
def parentConsistent (w : Workspace) : Prop :=
  ∀ p ∈ w.files, ∀ q, p.2.parent = some q →
    ∃ pp, p.2.parentPath = some pp ∧ q = normalizeScriptPath pp

/-- The decision `build_inheritance_graph` takes for a key: `some np` iff
the entry exists, has a raw parent path, and its normalization resolves;
read off the branch structure of `Workspace.buildStep`. -/
def buildDecision (w : Workspace) (k : String) : Option String :=
  match (lookupKey w.files k).map FileEntry.parentPath with
  | some (some pp) =>
    if w.contains (normalizeScriptPath pp) then
      some (normalizeScriptPath pp)
    else none
  | _ => none

/-- After `build_inheritance_graph` has processed key `k`, the links the
step would write are already present. -/
def BuildGood (w : Workspace) (k : String) : Prop :=
  ∀ np, buildDecision w k = some np →
    ∀ p ∈ w.files,
      (p.1 = k → p.2.parent = some np) ∧
      (p.1 = normalizeScriptPath np → k ∈ p.2.children)

/-- Build a `NodeList` from a `List`. -/
def nodeListOf (xs : List Node) : NodeList := xs.foldr NodeList.cons .nil

/-- Combined workspace well-formedness: distinct keys, entries stored under
their own script path, resolved parents coming from the entry's own raw
parent path. -/
def WF (w : Workspace) : Prop :=
  nodupKeys w ∧ keyConsistent w ∧ parentConsistent w

/-! ### Concrete states used by counterexamples and witnesses -/

/-- A stored entry with stale `parent`/`children` data and no raw parent
path: `build_inheritance_graph` leaves both fields untouched. -/
def staleEntry : FileEntry :=
  { filePath := "f", scriptPath := "a", name := "a", parentPath := none,
    parent := some "ghost", children := ["ghost"], members := [] }

def staleW : Workspace := ⟨[("a", staleEntry)], []⟩

/-- Parse tree of a self-inheriting file,
`a <- inherit("scripts/a", {})` in `scripts/a.nut`. -/
def selfTable : Node := .mk 8 "table" "" 22 24 0 22 .nil .nil

def selfStr : Node := .mk 7 "string" "\x22scripts/a\x22" 10 21 0 10 .nil .nil

def selfArgs : Node :=
  .mk 6 "call_args" "" 10 24 0 10 .nil (nodeListOf [selfStr, selfTable])

def selfInh : Node := .mk 5 "identifier" "inherit" 2 9 0 2 .nil .nil

def selfCall : Node :=
  .mk 4 "call_expression" "" 2 25 0 2 .nil (nodeListOf [selfInh, selfArgs])

def selfNS : Node := .mk 3 "<-" "<-" 1 2 0 1 .nil .nil

def selfIdent : Node := .mk 2 "identifier" "a" 0 1 0 0 .nil .nil

def selfUpd : Node :=
  .mk 1 "update_expression" "" 0 25 0 0 .nil
    (nodeListOf [selfIdent, selfNS, selfCall])

def selfRoot : Node := .mk 0 "script" "" 0 25 0 0 .nil (nodeListOf [selfUpd])

/-- The workspace obtained by indexing the self-inheriting file and
building the inheritance graph. -/
def selfW : Workspace :=
  runOps Workspace.empty [.indexFile "/x/scripts/a.nut" selfRoot, .build]

/-- The entry `selfW` stores under `"a"`. -/
def selfEntry : FileEntry :=
  { filePath := "/x/scripts/a.nut", scriptPath := "a", name := "a",
    parentPath := some "a", parent := some "a", children := ["a"],
    members := [] }

/-- A two-file acyclic chain: `b`'s parent is `c`, `c` has none. -/
def bEntry : FileEntry :=
  { filePath := "fb", scriptPath := "b", name := "b",
    parentPath := some "c", parent := some "c", children := [],
    members := [] }

def cEntry : FileEntry :=
  { filePath := "fc", scriptPath := "c", name := "c",
    parentPath := none, parent := none, children := ["b"],
    members := [] }

def chainW : Workspace := ⟨[("b", bEntry), ("c", cEntry)], []⟩

/-- The actor/human test workspace (`src/workspace.rs:712-752`):
`human` inherits from `actor`; `actor` has method `onDeath`, `human` has
method `onTurnStart`. -/
def actorEntry : FileEntry :=
  { filePath := "/t/scripts/entity/actor.nut", scriptPath := "entity/actor",
    name := "actor", parentPath := some "entity/base", parent := none,
    children := ["entity/human"],
    members := [{ name := "onDeath", memberType := .method,
                  line := 1, column := 4 }] }

def humanEntry : FileEntry :=
  { filePath := "/t/scripts/entity/human.nut", scriptPath := "entity/human",
    name := "human", parentPath := some "entity/actor",
    parent := some "entity/actor", children := [],
    members := [{ name := "onTurnStart", memberType := .method,
                  line := 1, column := 4 }] }

def actorHumanW : Workspace :=
  ⟨[("entity/actor", actorEntry), ("entity/human", humanEntry)], []⟩

/-- An empty parse tree (a file with no declarations at all). -/
def emptyRoot : Node := .mk 0 "script" "" 0 0 0 0 .nil .nil

/-- Parse tree of a file whose only inherit assignment sits *inside a
function body* — nothing at top level:
`function f() { z <- inherit("scripts/b", {}) }`. -/
def nestedTable : Node := .mk 18 "table" "" 40 42 0 40 .nil .nil

def nestedStr : Node := .mk 17 "string" "\x22scripts/b\x22" 28 39 0 28 .nil .nil

def nestedArgs : Node :=
  .mk 16 "call_args" "" 28 42 0 28 .nil (nodeListOf [nestedStr, nestedTable])

def nestedInh : Node := .mk 15 "identifier" "inherit" 20 27 0 20 .nil .nil

def nestedCall : Node :=
  .mk 14 "call_expression" "" 20 43 0 20 .nil
    (nodeListOf [nestedInh, nestedArgs])

def nestedNS : Node := .mk 13 "<-" "<-" 17 19 0 17 .nil .nil

def nestedIdent : Node := .mk 12 "identifier" "z" 15 16 0 15 .nil .nil

def nestedUpd : Node :=
  .mk 11 "update_expression" "" 15 43 0 15 .nil
    (nodeListOf [nestedIdent, nestedNS, nestedCall])

def nestedBody : Node :=
  .mk 10 "block" "" 13 45 0 13 .nil (nodeListOf [nestedUpd])

def nestedFn : Node :=
  .mk 9 "function_declaration" "" 0 45 0 0 .nil (nodeListOf [nestedBody])

def nestedRoot : Node :=
  .mk 19 "script" "" 0 45 0 0 .nil (nodeListOf [nestedFn])

/-- Parse tree of a file whose only top-level statement is `g <- 5`:
one global registration, no inherit call, no table. -/
def gNum : Node := .mk 22 "integer" "5" 5 6 0 5 .nil .nil

def gNS : Node := .mk 21 "<-" "<-" 2 4 0 2 .nil .nil

def gIdent : Node := .mk 20 "identifier" "g" 0 1 0 0 .nil .nil

def gUpd : Node :=
  .mk 23 "update_expression" "" 0 6 0 0 .nil
    (nodeListOf [gIdent, gNS, gNum])

def globalOnlyRoot : Node :=
  .mk 24 "script" "" 0 6 0 0 .nil (nodeListOf [gUpd])

/-- The inherit call `find_inherit_calls` extracts from `selfRoot`. -/
def selfInheritCall : InheritCall :=
  { className := "a", parentPath := "scripts/a",
    parentPathNode := selfStr, classBody := selfTable }

/-- An identifier occurrence of the built-in name `inherit` with no
parent node, in a context that also declares `inherit` as a local. -/
def inhSite : IdentSite :=
  { node := .mk 30 "identifier" "inherit" 0 7 0 0 .nil .nil,
    parent := none, prevSibling := none }

def inhCtx : ResolverContext :=
  { locals := ["inherit"], references := [], hasParent := false }

/-- Hook function `function(o) { local x = o.onDeth }`: a parameter `o`
and one member access `o.onDeth` in the body. -/
def hookDot : Node := .mk 42 "." "." 15 16 0 15 .nil .nil

def hookBase : Node := .mk 41 "identifier" "o" 14 15 0 14 .nil .nil

def hookMemberIdent : Node :=
  .mk 43 "identifier" "onDeth" 16 22 0 16 .nil .nil

def hookDeref : Node :=
  .mk 44 "deref_expression" "o.onDeth" 14 22 0 14 .nil
    (nodeListOf [hookBase, hookDot, hookMemberIdent])

def hookParamIdent : Node := .mk 45 "identifier" "o" 9 10 0 9 .nil .nil

def hookParams : Node :=
  .mk 46 "parameters" "(o)" 8 11 0 8 .nil (nodeListOf [hookParamIdent])

def hookBody : Node :=
  .mk 47 "block" "" 12 24 0 12 .nil (nodeListOf [hookDeref])

def hookFn : Node :=
  .mk 48 "anonymous_function" "" 0 24 0 0 .nil
    (nodeListOf [hookParams, hookBody])

def hookTargetStr : Node :=
  .mk 49 "string" "\x22entity/actor\x22" 0 0 0 0 .nil .nil

def actorHook : HookCall :=
  { targetPath := "entity/actor", targetPathNode := hookTargetStr,
    hookFunction := hookFn, hookParamName := some "o" }

/-! ## Association-list lemmas -/

theorem lookupKey_cons (q : String × FileEntry)
    (l : List (String × FileEntry)) (k : String) :
    lookupKey (q :: l) k = if q.1 = k then some q.2 else lookupKey l k := by
  by_cases h : q.1 = k
  · unfold lookupKey
    rw [List.find?_cons_of_pos _ (by simp [h])]
    simp [h]
  · unfold lookupKey
    rw [List.find?_cons_of_neg _ (by simp [h])]
    simp [h]

theorem updateKey_cons (q : String × FileEntry)
    (l : List (String × FileEntry)) (k : String) (f : FileEntry → FileEntry) :
    updateKey (q :: l) k f =
      (if q.1 = k then (q.1, f q.2) else q) :: updateKey l k f := by
  simp only [updateKey, List.map_cons]
  by_cases h : q.1 = k <;> simp [h]

theorem map_fst_updateKey (fs : List (String × FileEntry)) (k : String)
    (f : FileEntry → FileEntry) :
    (updateKey fs k f).map Prod.fst = fs.map Prod.fst := by
  induction fs with
  | nil => rfl
  | cons p rest ih =>
    rw [updateKey_cons]
    by_cases h : p.1 = k <;> simp [h, ih]

theorem lookupKey_updateKey (fs : List (String × FileEntry)) (k k' : String)
    (f : FileEntry → FileEntry) :
    lookupKey (updateKey fs k f) k' =
      if k' = k then (lookupKey fs k').map f else lookupKey fs k' := by
  induction fs with
  | nil => by_cases h : k' = k <;> simp [updateKey, lookupKey, h]
  | cons p rest ih =>
    rw [updateKey_cons, lookupKey_cons]
    by_cases hpk : p.1 = k
    · simp only [if_pos hpk]
      rw [lookupKey_cons]
      by_cases hk' : p.1 = k'
      · have hkk : k' = k := hk'.symm.trans hpk
        simp [hk', hkk]
      · have hne : k' ≠ k := fun hc => hk' (hpk.trans hc.symm)
        simp [hk', hne, ih]
    · simp only [if_neg hpk]
      rw [lookupKey_cons]
      by_cases hk' : p.1 = k'
      · have hne : k' ≠ k := fun hc => hpk (hk'.trans hc)
        simp [hk', hne]
      · simp [hk', ih]

theorem lookupKey_isSome_iff (fs : List (String × FileEntry)) (k : String) :
    (lookupKey fs k).isSome ↔ k ∈ fs.map Prod.fst := by
  induction fs with
  | nil => simp [lookupKey]
  | cons p rest ih =>
    rw [lookupKey_cons]
    by_cases h : p.1 = k
    · simp [h]
    · have h2 : ¬k = p.1 := fun hc => h hc.symm
      simp [h, h2, ih]

theorem mem_of_lookupKey_eq_some {fs : List (String × FileEntry)}
    {k : String} {e : FileEntry} (h : lookupKey fs k = some e) :
    (k, e) ∈ fs := by
  induction fs with
  | nil => simp [lookupKey] at h
  | cons p rest ih =>
    rw [lookupKey_cons] at h
    by_cases hp : p.1 = k
    · simp only [if_pos hp, Option.some.injEq] at h
      rcases p with ⟨a, b⟩
      simp only at hp h
      subst hp
      subst h
      exact List.mem_cons_self _ _
    · simp only [if_neg hp] at h
      exact List.mem_cons_of_mem p (ih h)

theorem lookupKey_eq_some_of_mem {fs : List (String × FileEntry)}
    {k : String} {e : FileEntry} (hnd : (fs.map Prod.fst).Nodup)
    (h : (k, e) ∈ fs) : lookupKey fs k = some e := by
  induction fs with
  | nil => simp at h
  | cons p rest ih =>
    simp only [List.map_cons, List.nodup_cons] at hnd
    rw [lookupKey_cons]
    rcases List.mem_cons.mp h with h1 | h1
    · simp [← h1]
    · have hk : p.1 ≠ k := by
        intro hc
        exact hnd.1 (hc ▸ (List.mem_map.mpr ⟨(k, e), h1, rfl⟩))
      simp only [if_neg hk]
      exact ih hnd.2 h1

theorem updateKey_eq_self {fs : List (String × FileEntry)} {k : String}
    {f : FileEntry → FileEntry}
    (h : ∀ p ∈ fs, p.1 = k → f p.2 = p.2) :
    updateKey fs k f = fs := by
  induction fs with
  | nil => rfl
  | cons p rest ih =>
    rw [updateKey_cons]
    have tail : updateKey rest k f = rest :=
      ih (fun q hq => h q (List.mem_cons_of_mem p hq))
    rw [tail]
    by_cases hp : p.1 = k
    · have hfp := h p (List.mem_cons_self p rest) hp
      rcases p with ⟨a, b⟩
      simp only at hp hfp
      subst hp
      simp [hfp]
    · simp [hp]

theorem mem_updateKey_iff {fs : List (String × FileEntry)} {k : String}
    {f : FileEntry → FileEntry} {q : String × FileEntry} :
    q ∈ updateKey fs k f ↔
      ∃ p ∈ fs, q = if p.1 = k then (p.1, f p.2) else p := by
  simp only [updateKey, List.mem_map]
  constructor
  · rintro ⟨p, hp, rfl⟩
    exact ⟨p, hp, by by_cases h : p.1 = k <;> simp [h]⟩
  · rintro ⟨p, hp, rfl⟩
    exact ⟨p, hp, by by_cases h : p.1 = k <;> simp [h]⟩

/-! ## `build_inheritance_graph`: characterization and stability -/

theorem buildStep_char_none {w : Workspace} {k : String}
    (h : buildDecision w k = none) : w.buildStep k = w := by
  unfold Workspace.buildStep
  unfold buildDecision at h
  rcases hl : lookupKey w.files k with _ | e
  · simp [hl]
  · rcases hpp : e.parentPath with _ | pp
    · simp [hl, hpp]
    · simp only [hl, hpp, Option.map_some'] at h
      split at h
      · exact absurd h (by simp)
      · rename_i hc
        simp only [hl, hpp]
        rw [if_neg hc]

theorem buildStep_char_some {w : Workspace} {k np : String}
    (h : buildDecision w k = some np) :
    w.buildStep k =
      ⟨updateKey
          (updateKey w.files k (fun en => { en with parent := some np }))
          (normalizeScriptPath np)
          (fun pe =>
            if k ∈ pe.children then pe
            else { pe with children := pe.children ++ [k] }),
        w.globals⟩ := by
  unfold Workspace.buildStep
  unfold buildDecision at h
  rcases hl : lookupKey w.files k with _ | e
  · simp [hl] at h
  · rcases hpp : e.parentPath with _ | pp
    · simp [hl, hpp] at h
    · simp only [hl, hpp, Option.map_some'] at h
      split at h
      · rename_i hc
        simp only [Option.some.injEq] at h
        subst h
        simp only [hl, hpp]
        rw [if_pos hc]
        rfl
      · simp at h

theorem keys_buildStep (w : Workspace) (k2 : String) :
    (w.buildStep k2).files.map Prod.fst = w.files.map Prod.fst := by
  rcases hd : buildDecision w k2 with _ | np
  · rw [buildStep_char_none hd]
  · rw [buildStep_char_some hd]
    simp [map_fst_updateKey]

theorem globals_buildStep (w : Workspace) (k2 : String) :
    (w.buildStep k2).globals = w.globals := by
  rcases hd : buildDecision w k2 with _ | np
  · rw [buildStep_char_none hd]
  · rw [buildStep_char_some hd]

theorem map_parentPath_updateKey (fs : List (String × FileEntry))
    (k' k : String) (f : FileEntry → FileEntry)
    (hf : ∀ e, (f e).parentPath = e.parentPath) :
    (lookupKey (updateKey fs k' f) k).map FileEntry.parentPath =
      (lookupKey fs k).map FileEntry.parentPath := by
  rw [lookupKey_updateKey]
  by_cases h : k = k'
  · rw [if_pos h]
    rcases lookupKey fs k with _ | e <;> simp [hf]
  · rw [if_neg h]

theorem lookupKey_map_parentPath_buildStep (w : Workspace) (k2 k : String) :
    (lookupKey (w.buildStep k2).files k).map FileEntry.parentPath =
      (lookupKey w.files k).map FileEntry.parentPath := by
  rcases hd : buildDecision w k2 with _ | np
  · rw [buildStep_char_none hd]
  · rw [buildStep_char_some hd]
    rw [map_parentPath_updateKey _ _ _ _
      (fun e => by by_cases hc : k2 ∈ e.children <;> simp [hc])]
    exact map_parentPath_updateKey _ _ _ _ (fun e => rfl)

theorem get_isSome_eq (w : Workspace) (x : String) :
    (w.get x).isSome =
      ((lookupKey w.files x).isSome ||
        (lookupKey w.files (normalizeScriptPath x)).isSome) := by
  unfold Workspace.get
  rcases h : lookupKey w.files x with _ | e <;> simp [h]

theorem contains_congr_keys {w w' : Workspace}
    (h : w'.files.map Prod.fst = w.files.map Prod.fst) (x : String) :
    w'.contains x = w.contains x := by
  unfold Workspace.contains
  rw [get_isSome_eq, get_isSome_eq]
  have e1 : (lookupKey w'.files x).isSome = (lookupKey w.files x).isSome := by
    by_cases hx : x ∈ w.files.map Prod.fst
    · rw [(lookupKey_isSome_iff _ _).mpr hx,
        (lookupKey_isSome_iff _ _).mpr (h ▸ hx)]
    · have h1 : ¬(lookupKey w.files x).isSome :=
        fun hc => hx ((lookupKey_isSome_iff _ _).mp hc)
      have h2 : ¬(lookupKey w'.files x).isSome :=
        fun hc => hx (h ▸ (lookupKey_isSome_iff _ _).mp hc)
      simp [Bool.not_eq_true] at h1 h2
      rw [h1, h2]
  have e2 : (lookupKey w'.files (normalizeScriptPath x)).isSome =
      (lookupKey w.files (normalizeScriptPath x)).isSome := by
    by_cases hx : normalizeScriptPath x ∈ w.files.map Prod.fst
    · rw [(lookupKey_isSome_iff _ _).mpr hx,
        (lookupKey_isSome_iff _ _).mpr (h ▸ hx)]
    · have h1 : ¬(lookupKey w.files (normalizeScriptPath x)).isSome :=
        fun hc => hx ((lookupKey_isSome_iff _ _).mp hc)
      have h2 : ¬(lookupKey w'.files (normalizeScriptPath x)).isSome :=
        fun hc => hx (h ▸ (lookupKey_isSome_iff _ _).mp hc)
      simp [Bool.not_eq_true] at h1 h2
      rw [h1, h2]
  rw [e1, e2]

theorem buildDecision_buildStep (w : Workspace) (k2 k : String) :
    buildDecision (w.buildStep k2) k = buildDecision w k := by
  unfold buildDecision
  rw [lookupKey_map_parentPath_buildStep]
  rcases h : (lookupKey w.files k).map FileEntry.parentPath with _ | opp
  · rfl
  · rcases opp with _ | pp
    · rfl
    · have hc := contains_congr_keys (keys_buildStep w k2) (normalizeScriptPath pp)
      simp only [hc]

theorem buildGood_step_self (w : Workspace) (k : String) :
    BuildGood (w.buildStep k) k := by
  intro np hdec p hp
  rw [buildDecision_buildStep] at hdec
  rw [buildStep_char_some hdec] at hp
  simp only at hp
  rcases mem_updateKey_iff.mp hp with ⟨q, hq, hqe⟩
  rcases mem_updateKey_iff.mp hq with ⟨r, hr, hre⟩
  have hfst_q : q.1 = r.1 := by
    subst hre; by_cases h : r.1 = k <;> simp [h]
  have hfst_p : p.1 = q.1 := by
    subst hqe; by_cases h : q.1 = normalizeScriptPath np <;> simp [h]
  have hparent_pq : p.2.parent = q.2.parent := by
    subst hqe
    by_cases h : q.1 = normalizeScriptPath np
    · by_cases h2 : k ∈ q.2.children <;> simp [h, h2]
    · simp [h]
  constructor
  · intro hk
    have hrk : r.1 = k := by rw [← hfst_q, ← hfst_p]; exact hk
    have hq2 : q.2.parent = some np := by
      subst hre; simp [hrk]
    rw [hparent_pq, hq2]
  · intro hnp
    have hq1 : q.1 = normalizeScriptPath np := by rw [← hfst_p]; exact hnp
    subst hqe
    rw [if_pos hq1]
    by_cases h2 : k ∈ q.2.children <;> simp [h2]

theorem buildGood_step_preserve {w : Workspace} {k : String}
    (h : BuildGood w k) (k2 : String) : BuildGood (w.buildStep k2) k := by
  intro np hdec p hp
  rw [buildDecision_buildStep] at hdec
  rcases hd2 : buildDecision w k2 with _ | np2
  · rw [buildStep_char_none hd2] at hp
    exact h np hdec p hp
  · rw [buildStep_char_some hd2] at hp
    simp only at hp
    rcases mem_updateKey_iff.mp hp with ⟨q, hq, hqe⟩
    rcases mem_updateKey_iff.mp hq with ⟨r, hr, hre⟩
    have hfst_q : q.1 = r.1 := by
      subst hre; by_cases hc : r.1 = k2 <;> simp [hc]
    have hfst_p : p.1 = q.1 := by
      subst hqe; by_cases hc : q.1 = normalizeScriptPath np2 <;> simp [hc]
    have hparent_pq : p.2.parent = q.2.parent := by
      subst hqe
      by_cases hc : q.1 = normalizeScriptPath np2
      · by_cases hm : k2 ∈ q.2.children <;> simp [hc, hm]
      · simp [hc]
    have hchildren_pq : ∀ x ∈ q.2.children, x ∈ p.2.children := by
      intro x hx
      subst hqe
      by_cases hc : q.1 = normalizeScriptPath np2
      · by_cases hm : k2 ∈ q.2.children <;>
          simp [hc, hm, hx, List.mem_append]
      · simp [hc, hx]
    have hG := h np hdec r hr
    constructor
    · intro hk
      have hrk : r.1 = k := by rw [← hfst_q, ← hfst_p]; exact hk
      have hparent_r := hG.1 hrk
      have hq2 : q.2.parent = some np := by
        subst hre
        by_cases hc : r.1 = k2
        · have hkk2 : k2 = k := hc.symm.trans hrk
          rw [hkk2] at hd2
          rw [hd2] at hdec
          have : np2 = np := by exact Option.some.inj hdec
          simp [hc, this]
        · simp [hc, hparent_r]
      rw [hparent_pq, hq2]
    · intro hnp
      have hrnp : r.1 = normalizeScriptPath np := by
        rw [← hfst_q, ← hfst_p]; exact hnp
      have hchild_r := hG.2 hrnp
      have hq2 : k ∈ q.2.children := by
        subst hre
        by_cases hc : r.1 = k2 <;> simp [hc, hchild_r]
      exact hchildren_pq k hq2

theorem buildGood_fold_preserve {w : Workspace} {k : String}
    (h : BuildGood w k) (L : List String) :
    BuildGood (L.foldl Workspace.buildStep w) k := by
  induction L generalizing w with
  | nil => exact h
  | cons k0 L' ih =>
    simp only [List.foldl_cons]
    exact ih (buildGood_step_preserve h k0)

theorem fold_buildGood (L : List String) (w : Workspace) :
    ∀ k ∈ L, BuildGood (L.foldl Workspace.buildStep w) k := by
  induction L generalizing w with
  | nil => intro k hk; simp at hk
  | cons k0 L' ih =>
    intro k hk
    simp only [List.foldl_cons]
    rcases List.mem_cons.mp hk with rfl | hmem
    · exact buildGood_fold_preserve (buildGood_step_self w k) L'
    · exact ih (w.buildStep k0) k hmem

theorem keys_fold (L : List String) (w : Workspace) :
    (L.foldl Workspace.buildStep w).files.map Prod.fst =
      w.files.map Prod.fst := by
  induction L generalizing w with
  | nil => rfl
  | cons k0 L' ih =>
    simp only [List.foldl_cons]
    rw [ih, keys_buildStep]

theorem globals_fold (L : List String) (w : Workspace) :
    (L.foldl Workspace.buildStep w).globals = w.globals := by
  induction L generalizing w with
  | nil => rfl
  | cons k0 L' ih =>
    simp only [List.foldl_cons]
    rw [ih, globals_buildStep]

theorem entry_eq_of_parent_eq {e : FileEntry} {np : String}
    (h : e.parent = some np) : { e with parent := some np } = e := by
  cases e
  simp_all

theorem build_fixpoint (w : Workspace) (k : String) :
    (w.buildInheritanceGraph).buildStep k = w.buildInheritanceGraph := by
  rcases hd : buildDecision w.buildInheritanceGraph k with _ | np
  · exact buildStep_char_none hd
  · have hks : (lookupKey w.buildInheritanceGraph.files k).isSome := by
      unfold buildDecision at hd
      rcases hl : lookupKey w.buildInheritanceGraph.files k with _ | e
      · rw [hl] at hd; simp at hd
      · simp
    have hkmem : k ∈ w.buildInheritanceGraph.files.map Prod.fst :=
      (lookupKey_isSome_iff _ _).mp hks
    have hkeys : w.buildInheritanceGraph.files.map Prod.fst =
        w.files.map Prod.fst := keys_fold _ w
    have hG : BuildGood w.buildInheritanceGraph k :=
      fold_buildGood (w.files.map Prod.fst) w k (hkeys ▸ hkmem)
    rw [buildStep_char_some hd]
    have h1 : updateKey w.buildInheritanceGraph.files k
        (fun en => { en with parent := some np }) =
          w.buildInheritanceGraph.files :=
      updateKey_eq_self (fun p hp hpk =>
        entry_eq_of_parent_eq ((hG np hd p hp).1 hpk))
    rw [h1]
    have h2 : updateKey w.buildInheritanceGraph.files
        (normalizeScriptPath np)
        (fun pe =>
          if k ∈ pe.children then pe
          else { pe with children := pe.children ++ [k] }) =
          w.buildInheritanceGraph.files :=
      updateKey_eq_self (fun p hp hpk => by
        have := (hG np hd p hp).2 hpk
        simp [this])
    rw [h2]

theorem foldl_fixed {f : Workspace → String → Workspace} {a : Workspace}
    (h : ∀ k, f a k = a) (L : List String) : L.foldl f a = a := by
  induction L with
  | nil => rfl
  | cons k0 L' ih =>
    simp only [List.foldl_cons, h k0]
    exact ih

/-- **C1 (amended).** `build_inheritance_graph` does *not* clear `parent`
and `children` before resolving; nevertheless it is idempotent on every
workspace state — in particular on every state produced by a sequence of
`index_file` calls — because the second run re-derives exactly the links
the first run already wrote (the parent write is the same value, the child
push is deduplicated). -/
theorem buildInheritanceGraph_idempotent (w : Workspace) :
    w.buildInheritanceGraph.buildInheritanceGraph =
      w.buildInheritanceGraph := by
  conv_lhs => unfold Workspace.buildInheritanceGraph
  exact foldl_fixed (build_fixpoint w) _

/-! ## Workspace well-formedness under the operations -/

theorem find_isSome_eq_lookup_isSome (fs : List (String × FileEntry))
    (k : String) :
    (fs.find? (fun p => p.1 == k)).isSome = (lookupKey fs k).isSome := by
  unfold lookupKey
  rcases h : fs.find? (fun p => p.1 == k) with _ | p <;> simp [h]

theorem mem_insertKey {fs : List (String × FileEntry)} {k : String}
    {v : FileEntry} {q : String × FileEntry} (h : q ∈ insertKey fs k v) :
    q ∈ fs ∨ q = (k, v) := by
  unfold insertKey at h
  split at h
  · rcases List.mem_map.mp h with ⟨p, hp, hq⟩
    by_cases hpk : p.1 = k
    · right
      simp [hpk] at hq
      exact hq.symm
    · left
      simp [hpk] at hq
      exact hq ▸ hp
  · rcases List.mem_append.mp h with h1 | h1
    · exact Or.inl h1
    · right
      simpa using h1

theorem map_fst_replaceAll (fs : List (String × FileEntry)) (k : String)
    (v : FileEntry) :
    (fs.map (fun p => if p.1 == k then (k, v) else p)).map Prod.fst =
      fs.map Prod.fst := by
  induction fs with
  | nil => rfl
  | cons p rest ih =>
    simp only [List.map_cons]
    have hh : (if (p.1 == k) = true then (k, v) else p).1 = p.1 := by
      by_cases hpk : p.1 = k <;> simp [hpk]
    rw [hh, ih]

theorem map_fst_insertKey_present {fs : List (String × FileEntry)}
    {k : String} (v : FileEntry)
    (h : (fs.find? (fun p => p.1 == k)).isSome) :
    (insertKey fs k v).map Prod.fst = fs.map Prod.fst := by
  unfold insertKey
  rw [if_pos h]
  exact map_fst_replaceAll fs k v

theorem map_fst_insertKey_absent {fs : List (String × FileEntry)}
    {k : String} (v : FileEntry)
    (h : ¬(fs.find? (fun p => p.1 == k)).isSome) :
    (insertKey fs k v).map Prod.fst = fs.map Prod.fst ++ [k] := by
  unfold insertKey
  rw [if_neg h]
  simp

theorem nodup_insertKey {fs : List (String × FileEntry)} {k : String}
    (v : FileEntry) (hnd : (fs.map Prod.fst).Nodup) :
    ((insertKey fs k v).map Prod.fst).Nodup := by
  by_cases h : (fs.find? (fun p => p.1 == k)).isSome
  · rw [map_fst_insertKey_present v h]
    exact hnd
  · rw [map_fst_insertKey_absent v h]
    have hk : k ∉ fs.map Prod.fst := by
      intro hc
      exact h ((find_isSome_eq_lookup_isSome fs k) ▸
        ((lookupKey_isSome_iff fs k).mpr hc))
    simp [List.nodup_append, hnd, hk]

theorem files_foldl_registerGlobal (L : List String) (w : Workspace) :
    (L.foldl Workspace.registerGlobal w).files = w.files := by
  induction L generalizing w with
  | nil => rfl
  | cons x L' ih =>
    simp only [List.foldl_cons]
    rw [ih]
    rfl

theorem files_extractGlobals (w : Workspace) (root : Node) :
    (w.extractGlobals root).files = w.files :=
  files_foldl_registerGlobal _ w

theorem WF_insert {w : Workspace} (hWF : WF w) {k : String} {v : FileEntry}
    (hv : v.scriptPath = k) (hp : v.parent = none) (g : List String) :
    WF ⟨insertKey w.files k v, g⟩ := by
  obtain ⟨hnd, hkc, hpc⟩ := hWF
  refine ⟨nodup_insertKey v hnd, ?_, ?_⟩
  · intro p hm
    rcases mem_insertKey hm with h1 | h1
    · exact hkc p h1
    · rw [h1]
      exact hv
  · intro p hm q hq
    rcases mem_insertKey hm with h1 | h1
    · exact hpc p h1 q hq
    · rw [h1] at hq
      simp only at hq
      rw [hp] at hq
      exact absurd hq (by simp)

theorem WF_extractGlobals {w1 : Workspace} (h1 : WF w1) (root : Node) :
    WF (w1.extractGlobals root) := by
  obtain ⟨a, b, c⟩ := h1
  have he := files_extractGlobals w1 root
  exact ⟨by unfold nodupKeys; rw [he]; exact a,
         by unfold keyConsistent; rw [he]; exact b,
         by unfold parentConsistent; rw [he]; exact c⟩

theorem WF_indexFile {w : Workspace} (hWF : WF w) (fp : String)
    (root : Node) : WF (w.indexFile fp root) := by
  simp only [Workspace.indexFile]
  by_cases hsp : (extractScriptPath fp == "") = true
  · simp only [hsp, if_true]
    exact hWF
  · simp only [Bool.not_eq_true] at hsp
    simp only [hsp, if_false]
    apply WF_extractGlobals
    rcases hic : findInheritCalls root with _ | ⟨ic, rest⟩ <;>
      simp only [hic]
    · rcases hgt : findGlobalTable root (fileStem fp) with _ | ⟨name, tbl⟩ <;>
        simp only [hgt]
      · exact hWF
      · refine WF_insert hWF ?_ ?_ _ <;> rfl
    · refine WF_insert hWF ?_ ?_ _ <;> rfl

theorem buildDecision_spec {w : Workspace} {k np : String}
    (h : buildDecision w k = some np) :
    ∃ e pp, lookupKey w.files k = some e ∧ e.parentPath = some pp ∧
      np = normalizeScriptPath pp ∧ w.contains np = true := by
  unfold buildDecision at h
  rcases hl : lookupKey w.files k with _ | e
  · rw [hl] at h
    simp at h
  · rw [hl] at h
    rcases hpp : e.parentPath with _ | pp
    · simp [hpp] at h
    · simp only [hpp, Option.map_some'] at h
      split at h
      · rename_i hc
        simp only [Option.some.injEq] at h
        exact ⟨e, pp, rfl, hpp, h.symm, h ▸ hc⟩
      · simp at h

theorem pushChildren_parent (k : String) (e : FileEntry) :
    (if k ∈ e.children then e
     else { e with children := e.children ++ [k] }).parent = e.parent := by
  split <;> rfl

theorem pushChildren_parentPath (k : String) (e : FileEntry) :
    (if k ∈ e.children then e
     else { e with children := e.children ++ [k] }).parentPath =
      e.parentPath := by
  split <;> rfl

theorem pushChildren_scriptPath (k : String) (e : FileEntry) :
    (if k ∈ e.children then e
     else { e with children := e.children ++ [k] }).scriptPath =
      e.scriptPath := by
  split <;> rfl

theorem WF_buildStep {w : Workspace} (hWF : WF w) (k : String) :
    WF (w.buildStep k) := by
  obtain ⟨hnd, hkc, hpc⟩ := hWF
  rcases hd : buildDecision w k with _ | np
  · rw [buildStep_char_none hd]
    exact ⟨hnd, hkc, hpc⟩
  · rw [buildStep_char_some hd]
    obtain ⟨e, pp, hl, hpp, hnp, _⟩ := buildDecision_spec hd
    refine ⟨?_, ?_, ?_⟩
    · unfold nodupKeys
      simp only [map_fst_updateKey]
      exact hnd
    · intro p hp
      simp only at hp
      rcases mem_updateKey_iff.mp hp with ⟨q1, hq1, hqe⟩
      rcases mem_updateKey_iff.mp hq1 with ⟨r, hr, hre⟩
      have h1 := hkc r hr
      subst hqe
      subst hre
      by_cases hc1 : r.1 = k <;> by_cases hm : k ∈ r.2.children <;>
        by_cases hc3 : r.1 = normalizeScriptPath np <;>
          simp_all [FileEntry.scriptPath]
    · intro p hp q hq
      simp only at hp
      rcases mem_updateKey_iff.mp hp with ⟨q1, hq1, hqe⟩
      rcases mem_updateKey_iff.mp hq1 with ⟨r, hr, hre⟩
      subst hre
      -- key of the first update result is still `r.1`
      have hfst1 : (if r.1 = k then
          (r.1, ({ r.2 with parent := some np } : FileEntry)) else r).1 =
            r.1 := by
        by_cases hc1 : r.1 = k <;> simp [hc1]
      have hp_parent : p.2.parent =
          (if r.1 = k then
            (r.1, ({ r.2 with parent := some np } : FileEntry))
          else r).2.parent := by
        subst hqe
        by_cases hc3 : (if r.1 = k then
            (r.1, ({ r.2 with parent := some np } : FileEntry))
          else r).1 = normalizeScriptPath np
        · rw [if_pos hc3]
          exact pushChildren_parent _ _
        · rw [if_neg hc3]
      have hp_parentPath : p.2.parentPath =
          (if r.1 = k then
            (r.1, ({ r.2 with parent := some np } : FileEntry))
          else r).2.parentPath := by
        subst hqe
        by_cases hc3 : (if r.1 = k then
            (r.1, ({ r.2 with parent := some np } : FileEntry))
          else r).1 = normalizeScriptPath np
        · rw [if_pos hc3]
          exact pushChildren_parentPath _ _
        · rw [if_neg hc3]
      by_cases hc1 : r.1 = k
      · have hre2 : r.2 = e :=
          Option.some.inj
            ((lookupKey_eq_some_of_mem hnd
              (show (k, r.2) ∈ w.files from hc1 ▸ hr)).symm.trans hl)
        rw [hp_parent, if_pos hc1] at hq
        simp only at hq
        have hqnp : q = np := (Option.some.inj hq).symm
        refine ⟨pp, ?_, ?_⟩
        · rw [hp_parentPath, if_pos hc1]
          simp only
          rw [hre2]
          exact hpp
        · rw [hqnp]
          exact hnp
      · rw [hp_parent, if_neg hc1] at hq
        rcases hpc r hr q hq with ⟨pp2, h1, h2⟩
        refine ⟨pp2, ?_, h2⟩
        rw [hp_parentPath, if_neg hc1]
        exact h1

theorem WF_build {w : Workspace} (hWF : WF w) :
    WF w.buildInheritanceGraph := by
  unfold Workspace.buildInheritanceGraph
  generalize w.files.map Prod.fst = L
  induction L generalizing w with
  | nil => exact hWF
  | cons k L' ih =>
    simp only [List.foldl_cons]
    exact ih (WF_buildStep hWF k)

theorem WF_empty : WF Workspace.empty := by
  refine ⟨?_, ?_, ?_⟩ <;> simp [nodupKeys, keyConsistent, parentConsistent,
    Workspace.empty]

theorem WF_runOps {w : Workspace} (hWF : WF w) (ops : List Op) :
    WF (runOps w ops) := by
  induction ops generalizing w with
  | nil => exact hWF
  | cons op rest ih =>
    simp only [runOps, List.foldl_cons]
    have h1 : WF (applyOp w op) := by
      cases op with
      | indexFile p r => exact WF_indexFile hWF p r
      | build => exact WF_build hWF
    exact ih h1

theorem Reachable_WF {w : Workspace} (h : Reachable w) : WF w := by
  rcases h with ⟨ops, rfl⟩
  exact WF_runOps WF_empty ops

/-! ## C1: `build_inheritance_graph` does not clear, yet is idempotent -/

/-- **C1 (counterexample).** `build_inheritance_graph` does not clear
`parent` and `children` before resolving: on a state whose entry has stale
`parent`/`children` data and no raw parent path, both fields survive the
build unchanged. -/
theorem buildInheritanceGraph_does_not_clear :
    ((staleW.buildInheritanceGraph).get "a").map
        (fun e => (e.parent, e.children)) =
      some (some "ghost", ["ghost"]) := by decide

/-! ## C2: self-parenting -/

/-- **C2 (counterexample).** A reachable state (index the self-inheriting
file `scripts/a.nut`, then build) contains an entry whose resolved
`parent` *is* its own `script_path`. -/
theorem parent_self_counterexample :
    Reachable selfW ∧
      ∃ p ∈ selfW.files, p.2.parent = some p.2.scriptPath :=
  ⟨⟨[.indexFile "/x/scripts/a.nut" selfRoot, .build], rfl⟩, by decide⟩

/-- **C2 (amended).** In every workspace state reachable by `index_file`
and `build_inheritance_graph` calls, an entry's resolved `parent` equals
its own `script_path` only when the entry's own raw `parent_path`
normalizes to that script path — i.e. only when the file's inherit call
names (a spelling of) its own script path; no other state produces
self-parenting. -/
theorem parent_self_only_from_self_inherit {w : Workspace}
    (hw : Reachable w) {k : String} {e : FileEntry}
    (hke : (k, e) ∈ w.files) (hq : e.parent = some e.scriptPath) :
    ∃ pp, e.parentPath = some pp ∧
      normalizeScriptPath pp = e.scriptPath := by
  obtain ⟨_, _, hpc⟩ := Reachable_WF hw
  rcases hpc (k, e) hke e.scriptPath hq with ⟨pp, h1, h2⟩
  exact ⟨pp, h1, h2.symm⟩

theorem parent_self_only_from_self_inherit_witness :
    ("a", selfEntry) ∈ selfW.files ∧
      selfEntry.parent = some selfEntry.scriptPath ∧
      ∃ pp, selfEntry.parentPath = some pp ∧
        normalizeScriptPath pp = selfEntry.scriptPath :=
  ⟨by decide, by decide,
    @parent_self_only_from_self_inherit selfW
      ⟨[.indexFile "/x/scripts/a.nut" selfRoot, .build], rfl⟩
      "a" selfEntry (by decide) (by decide)⟩

/-! ## C3: the queried file among its own ancestors -/

theorem parentIter_succ (w : Workspace) (s : String) (n : Nat) :
    parentIter w s (n + 1) =
      match parentStep w s with
      | some t => parentIter w t n
      | none => none := rfl

theorem mem_getAncestorsAux {w : Workspace} {e : FileEntry} :
    ∀ (fuel : Nat) (cur : String) (vis : List String)
      (acc : List FileEntry),
      e ∈ w.getAncestorsAux fuel cur vis acc →
      e ∈ acc ∨
        ∃ n q, parentIter w cur (n + 1) = some q ∧ w.get q = some e := by
  intro fuel
  induction fuel with
  | zero => intro cur vis acc h; exact Or.inl h
  | succ f ih =>
    intro cur vis acc h
    unfold Workspace.getAncestorsAux at h
    rcases hg : w.get cur with _ | entry
    · rw [hg] at h
      exact Or.inl h
    · rw [hg] at h
      dsimp only at h
      rcases hpar : entry.parent with _ | pp
      · rw [hpar] at h
        exact Or.inl h
      · rw [hpar] at h
        dsimp only at h
        by_cases hv : pp ∈ vis
        · rw [if_pos hv] at h
          exact Or.inl h
        · rw [if_neg hv] at h
          rcases hgp : w.get pp with _ | pe
          · rw [hgp] at h
            exact Or.inl h
          · rw [hgp] at h
            dsimp only at h
            have hstep : parentStep w cur = some pp := by
              unfold parentStep
              rw [hg]
              exact hpar
            rcases ih pp (vis ++ [pp]) (acc ++ [pe]) h with h1 | ⟨m, q, h1, h2⟩
            · rcases List.mem_append.mp h1 with h2 | h2
              · exact Or.inl h2
              · refine Or.inr ⟨0, pp, ?_, ?_⟩
                · rw [parentIter_succ, hstep]
                  rfl
                · simp only [List.mem_singleton] at h2
                  rw [h2]
                  exact hgp
            · refine Or.inr ⟨m + 1, q, ?_, h2⟩
              rw [parentIter_succ, hstep]
              exact h1

/-- **C3 (amended).** `get_ancestors(p)` never returns the entry whose
`script_path` is the normalization of `p`, *provided* no chain of parent
links starting at `p` resolves to that entry (no cycle through `p`); when
such a cycle exists the queried file can appear in the result. -/
theorem getAncestors_not_self_of_acyclic (w : Workspace) (p : String)
    (h : ∀ n q e, parentIter w p (n + 1) = some q → w.get q = some e →
      e.scriptPath ≠ normalizeScriptPath p) :
    ∀ e ∈ w.getAncestors p, e.scriptPath ≠ normalizeScriptPath p := by
  intro e he
  unfold Workspace.getAncestors at he
  rcases mem_getAncestorsAux _ _ _ _ he with h1 | ⟨n, q, h1, h2⟩
  · simp at h1
  · exact h n q e h1 h2

/-- **C3 (counterexample).** With the self-inheriting file indexed and
built, the parent links form a cycle through `"a"` and
`get_ancestors("a")` returns the entry of `"a"` itself. -/
theorem getAncestors_contains_self_on_cycle :
    Reachable selfW ∧
      ∃ e ∈ selfW.getAncestors "a",
        e.scriptPath = normalizeScriptPath "a" :=
  ⟨⟨[.indexFile "/x/scripts/a.nut" selfRoot, .build], rfl⟩, by decide⟩

theorem getAncestors_not_self_witness :
    cEntry ∈ chainW.getAncestors "b" ∧
      cEntry.scriptPath ≠ normalizeScriptPath "b" :=
  ⟨by decide,
    getAncestors_not_self_of_acyclic chainW "b"
      (by
        intro n q e h1 h2
        match n with
        | 0 =>
          have hq : parentIter chainW "b" 1 = some "c" := by decide
          rw [hq] at h1
          have : q = "c" := (Option.some.inj h1).symm
          subst this
          have hc : chainW.get "c" = some cEntry := by decide
          rw [hc] at h2
          have : e = cEntry := (Option.some.inj h2).symm
          rw [this]
          decide
        | (m + 1) =>
          have hs1 : parentStep chainW "b" = some "c" := by decide
          rw [parentIter_succ, hs1] at h1
          dsimp only at h1
          have hs2 : parentStep chainW "c" = none := by decide
          rw [parentIter_succ, hs2] at h1
          exact absurd h1 (by simp))
      cEntry (by decide)⟩

/-! ## C4: `has_method` -/

theorem map_fst_ite_update {α : Type _} (m : List (String × α)) (k : String)
    (v : α) :
    (m.map (fun p => if p.1 == k then (p.1, v) else p)).map Prod.fst =
      m.map Prod.fst := by
  induction m with
  | nil => rfl
  | cons p rest ih =>
    simp only [List.map_cons]
    have hh : (if (p.1 == k) = true then (p.1, v) else p).1 = p.1 := by
      by_cases hpk : p.1 = k <;> simp [hpk]
    rw [hh, ih]

theorem find_isSome_iff_mem_fst {α : Type _} (m : List (String × α))
    (k : String) :
    (m.find? (fun p => p.1 == k)).isSome ↔ k ∈ m.map Prod.fst := by
  induction m with
  | nil => simp
  | cons p rest ih =>
    by_cases h : p.1 = k
    · rw [List.find?_cons_of_pos _ (by simp [h])]
      simp [h]
    · rw [List.find?_cons_of_neg _ (by simp [h])]
      have h2 : ¬k = p.1 := fun hc => h hc.symm
      simp [h2, ih]

theorem mem_keys_mapInsertMember {m : List (String × MemberInfo)}
    {mem : MemberInfo} {x : String} :
    x ∈ (mapInsertMember m mem).map Prod.fst ↔
      x ∈ m.map Prod.fst ∨ x = mem.name := by
  unfold mapInsertMember
  by_cases h : (m.find? (fun p => p.1 == mem.name)).isSome
  · rw [if_pos h, map_fst_ite_update]
    have hn : mem.name ∈ m.map Prod.fst := (find_isSome_iff_mem_fst _ _).mp h
    constructor
    · exact Or.inl
    · rintro (h1 | rfl)
      · exact h1
      · exact hn
  · rw [if_neg h]
    simp

theorem values_name_mapInsertMember {m : List (String × MemberInfo)}
    {mem : MemberInfo} (hinv : ∀ p ∈ m, p.2.name = p.1) :
    ∀ p ∈ mapInsertMember m mem, p.2.name = p.1 := by
  unfold mapInsertMember
  split
  · intro p hp
    rcases List.mem_map.mp hp with ⟨q, hq, hqe⟩
    by_cases hpk : q.1 = mem.name
    · simp only [hpk, beq_self_eq_true, if_true] at hqe
      rw [← hqe]
    · have : (q.1 == mem.name) = false := by simp [hpk]
      simp only [this] at hqe
      simp only [Bool.false_eq_true, if_false] at hqe
      rw [← hqe]
      exact hinv q hq
  · intro p hp
    rcases List.mem_append.mp hp with h1 | h1
    · exact hinv p h1
    · simp only [List.mem_singleton] at h1
      rw [h1]

theorem keys_foldl_insertMembers (ms : List MemberInfo)
    (acc : List (String × MemberInfo)) (x : String) :
    x ∈ (ms.foldl mapInsertMember acc).map Prod.fst ↔
      x ∈ acc.map Prod.fst ∨ ∃ mi ∈ ms, mi.name = x := by
  induction ms generalizing acc with
  | nil => simp
  | cons mi rest ih =>
    simp only [List.foldl_cons]
    rw [ih]
    rw [mem_keys_mapInsertMember]
    constructor
    · rintro ((h1 | h1) | h1)
      · exact Or.inl h1
      · exact Or.inr ⟨mi, List.mem_cons_self _ _, h1.symm⟩
      · rcases h1 with ⟨mj, hmj, hx⟩
        exact Or.inr ⟨mj, List.mem_cons_of_mem _ hmj, hx⟩
    · rintro (h1 | ⟨mj, hmj, hx⟩)
      · exact Or.inl (Or.inl h1)
      · rcases List.mem_cons.mp hmj with rfl | h2
        · exact Or.inl (Or.inr hx.symm)
        · exact Or.inr ⟨mj, h2, hx⟩

theorem values_name_foldl_insertMembers (ms : List MemberInfo)
    {acc : List (String × MemberInfo)}
    (hinv : ∀ p ∈ acc, p.2.name = p.1) :
    ∀ p ∈ ms.foldl mapInsertMember acc, p.2.name = p.1 := by
  induction ms generalizing acc with
  | nil => exact hinv
  | cons mi rest ih =>
    simp only [List.foldl_cons]
    exact ih (values_name_mapInsertMember hinv)

theorem keys_foldl_paths (w : Workspace) (paths : List String)
    (acc : List (String × MemberInfo)) (x : String) :
    x ∈ ((paths.foldl
        (fun acc path =>
          match w.get path with
          | some entry => entry.members.foldl mapInsertMember acc
          | none => acc) acc).map Prod.fst) ↔
      x ∈ acc.map Prod.fst ∨
        ∃ path ∈ paths, ∃ e, w.get path = some e ∧
          ∃ mi ∈ e.members, mi.name = x := by
  induction paths generalizing acc with
  | nil => simp
  | cons path rest ih =>
    simp only [List.foldl_cons]
    rw [ih]
    rcases hg : w.get path with _ | entry
    · constructor
      · rintro (h1 | h1)
        · exact Or.inl h1
        · rcases h1 with ⟨q, hq, he⟩
          exact Or.inr ⟨q, List.mem_cons_of_mem _ hq, he⟩
      · rintro (h1 | ⟨q, hq, e, he, hmi⟩)
        · exact Or.inl h1
        · rcases List.mem_cons.mp hq with rfl | h2
          · rw [hg] at he
            exact absurd he (by simp)
          · exact Or.inr ⟨q, h2, e, he, hmi⟩
    · rw [keys_foldl_insertMembers]
      constructor
      · rintro ((h1 | h1) | h1)
        · exact Or.inl h1
        · exact Or.inr ⟨path, List.mem_cons_self _ _, entry, hg, h1⟩
        · rcases h1 with ⟨q, hq, he⟩
          exact Or.inr ⟨q, List.mem_cons_of_mem _ hq, he⟩
      · rintro (h1 | ⟨q, hq, e, he, hmi⟩)
        · exact Or.inl (Or.inl h1)
        · rcases List.mem_cons.mp hq with rfl | h2
          · rw [hg] at he
            have : e = entry := (Option.some.inj he).symm
            subst this
            exact Or.inl (Or.inr hmi)
          · exact Or.inr ⟨q, h2, e, he, hmi⟩

theorem values_name_foldl_paths (w : Workspace) (paths : List String)
    {acc : List (String × MemberInfo)}
    (hinv : ∀ p ∈ acc, p.2.name = p.1) :
    ∀ p ∈ paths.foldl
        (fun acc path =>
          match w.get path with
          | some entry => entry.members.foldl mapInsertMember acc
          | none => acc) acc, p.2.name = p.1 := by
  induction paths generalizing acc with
  | nil => exact hinv
  | cons path rest ih =>
    simp only [List.foldl_cons]
    rcases hg : w.get path with _ | entry
    · exact ih hinv
    · exact ih (values_name_foldl_insertMembers _ hinv)

theorem getAllMembers_name_iff (w : Workspace) (p x : String) :
    (∃ mi ∈ w.getAllMembers p, mi.name = x) ↔
      ∃ path ∈ p :: (w.getAncestors p).map FileEntry.scriptPath,
        ∃ e, w.get path = some e ∧ ∃ mi ∈ e.members, mi.name = x := by
  unfold Workspace.getAllMembers
  simp only
  constructor
  · rintro ⟨mi, hmi, hname⟩
    rcases List.mem_map.mp hmi with ⟨pair, hpair, hpe⟩
    have hinv := values_name_foldl_paths w _ (by simp) pair hpair
    have hx : pair.1 = x := by rw [← hinv, hpe, hname]
    have : x ∈ _ := List.mem_map.mpr ⟨pair, hpair, hx⟩
    rw [keys_foldl_paths] at this
    rcases this with h1 | ⟨path, hpath, e, he, hm⟩
    · simp at h1
    · exact ⟨path, List.mem_reverse.mp hpath, e, he, hm⟩
  · rintro ⟨path, hpath, e, he, mi, hmi, hname⟩
    have : x ∈ ((((p :: (w.getAncestors p).map FileEntry.scriptPath).reverse).foldl
        (fun acc path =>
          match w.get path with
          | some entry => entry.members.foldl mapInsertMember acc
          | none => acc) []).map Prod.fst) := by
      rw [keys_foldl_paths]
      exact Or.inr ⟨path, List.mem_reverse.mpr hpath, e, he, mi, hmi, hname⟩
    rcases List.mem_map.mp this with ⟨pair, hpair, hpe⟩
    have hinv := values_name_foldl_paths w _ (by simp) pair hpair
    exact ⟨pair.2, List.mem_map.mpr ⟨pair, hpair, rfl⟩, by rw [hinv, hpe]⟩

theorem get_eq_some_exists_key {w : Workspace} {q : String} {e : FileEntry}
    (h : w.get q = some e) :
    ∃ k0, lookupKey w.files k0 = some e := by
  unfold Workspace.get at h
  rcases hl : lookupKey w.files q with _ | e'
  · rw [hl] at h
    exact ⟨normalizeScriptPath q, h⟩
  · rw [hl] at h
    exact ⟨q, hl.trans (by simpa using h)⟩

theorem get_scriptPath_self {w : Workspace} (hnd : nodupKeys w)
    (hkc : keyConsistent w) {q : String} {e : FileEntry}
    (h : w.get q = some e) : w.get e.scriptPath = some e := by
  rcases get_eq_some_exists_key h with ⟨k0, hk0⟩
  have hmem := mem_of_lookupKey_eq_some hk0
  have hsp : e.scriptPath = k0 := hkc (k0, e) hmem
  unfold Workspace.get
  rw [hsp, lookupKey_eq_some_of_mem hnd hmem]

theorem get_of_mem_getAncestors {w : Workspace} (hnd : nodupKeys w)
    (hkc : keyConsistent w) {p : String} {e : FileEntry}
    (he : e ∈ w.getAncestors p) : w.get e.scriptPath = some e := by
  unfold Workspace.getAncestors at he
  rcases mem_getAncestorsAux _ _ _ _ he with h1 | ⟨n, q, _, h2⟩
  · simp at h1
  · exact get_scriptPath_self hnd hkc h2

/-- **C4.** `has_method(p, m)` holds exactly when `m` names a `Method`
member of the entry at `p` or of some entry returned by
`get_ancestors(p)` (for workspaces whose map keys are distinct and whose
entries are stored under their own script path — invariants of every
state the index builds). -/
theorem hasMethod_iff_self_or_ancestor_member {w : Workspace}
    (hnd : nodupKeys w) (hkc : keyConsistent w) (p m : String) :
    w.hasMethod p m = true ↔
      ((∃ e, w.get p = some e ∧
          ∃ mi ∈ e.members, mi.name = m ∧ mi.memberType = .method) ∨
       (∃ e ∈ w.getAncestors p,
          ∃ mi ∈ e.members, mi.name = m ∧ mi.memberType = .method)) := by
  have htype : ∀ mi : MemberInfo, mi.memberType = MemberType.method := by
    intro mi
    cases h : mi.memberType
    rfl
  unfold Workspace.hasMethod
  rw [List.any_eq_true]
  have hstep : (∃ mi ∈ w.getAllMembers p,
      (mi.name == m && (mi.memberType == MemberType.method)) = true) ↔
      ∃ mi ∈ w.getAllMembers p, mi.name = m := by
    constructor
    · rintro ⟨mi, hmi, hb⟩
      simp only [Bool.and_eq_true, beq_iff_eq] at hb
      exact ⟨mi, hmi, hb.1⟩
    · rintro ⟨mi, hmi, hname⟩
      exact ⟨mi, hmi, by simp [hname, htype mi]⟩
  rw [hstep, getAllMembers_name_iff]
  constructor
  · rintro ⟨path, hpath, e, he, mi, hmi, hname⟩
    rcases List.mem_cons.mp hpath with rfl | h2
    · exact Or.inl ⟨e, he, mi, hmi, hname, htype mi⟩
    · rcases List.mem_map.mp h2 with ⟨e0, he0, hsp⟩
      have hge0 := get_of_mem_getAncestors hnd hkc he0
      rw [← hsp] at he
      have : e = e0 := Option.some.inj ((hge0.symm.trans he).symm)
      subst this
      exact Or.inr ⟨e, he0, mi, hmi, hname, htype mi⟩
  · rintro (⟨e, he, mi, hmi, hname, _⟩ | ⟨e, he, mi, hmi, hname, _⟩)
    · exact ⟨p, List.mem_cons_self _ _, e, he, mi, hmi, hname⟩
    · exact ⟨e.scriptPath,
        List.mem_cons_of_mem _ (List.mem_map.mpr ⟨e, he, rfl⟩),
        e, get_of_mem_getAncestors hnd hkc he, mi, hmi, hname⟩

theorem hasMethod_iff_self_or_ancestor_member_witness :
    nodupKeys actorHumanW ∧ keyConsistent actorHumanW ∧
      (actorHumanW.hasMethod "entity/human" "onDeath" = true ↔
        ((∃ e, actorHumanW.get "entity/human" = some e ∧
            ∃ mi ∈ e.members,
              mi.name = "onDeath" ∧ mi.memberType = .method) ∨
         (∃ e ∈ actorHumanW.getAncestors "entity/human",
            ∃ mi ∈ e.members,
              mi.name = "onDeath" ∧ mi.memberType = .method))) :=
  ⟨by unfold nodupKeys; decide, by unfold keyConsistent; decide,
    hasMethod_iff_self_or_ancestor_member
      (by unfold nodupKeys; decide) (by unfold keyConsistent; decide)
      "entity/human" "onDeath"⟩

/-! ## C9: globals are monotone -/

theorem mem_insertName {s : List String} {x y : String} (h : x ∈ s) :
    x ∈ insertName s y := by
  unfold insertName
  split
  · exact h
  · exact List.mem_append_left _ h

theorem globals_registerGlobal_mono {w : Workspace} {x y : String}
    (h : x ∈ w.globals) : x ∈ (w.registerGlobal y).globals :=
  mem_insertName h

theorem globals_foldl_registerGlobal_mono (L : List String) {w : Workspace}
    {x : String} (h : x ∈ w.globals) :
    x ∈ (L.foldl Workspace.registerGlobal w).globals := by
  induction L generalizing w with
  | nil => exact h
  | cons y L' ih =>
    simp only [List.foldl_cons]
    exact ih (globals_registerGlobal_mono h)

theorem globals_indexFile_mono {w : Workspace} {x : String}
    (h : x ∈ w.globals) (fp : String) (root : Node) :
    x ∈ (w.indexFile fp root).globals := by
  simp only [Workspace.indexFile]
  by_cases hsp : (extractScriptPath fp == "") = true
  · simp only [hsp, if_true]
    exact h
  · simp only [Bool.not_eq_true] at hsp
    simp only [hsp, if_false]
    have hsame : ∀ w1 : Workspace, w1.globals = w.globals →
        x ∈ (w1.extractGlobals root).globals := by
      intro w1 h1
      exact globals_foldl_registerGlobal_mono _ (h1 ▸ h)
    rcases hic : findInheritCalls root with _ | ⟨ic, rest⟩ <;>
      simp only [hic]
    · rcases hgt : findGlobalTable root (fileStem fp) with _ | ⟨name, tbl⟩ <;>
        simp only [hgt]
      · exact hsame w rfl
      · exact hsame _ rfl
    · exact hsame _ rfl

/-- **C9.** The globals set is monotone: `index_file` only inserts into
`globals` and `build_inheritance_graph` leaves it unchanged, so once an
identifier is registered it stays registered across every later sequence
of operations — in particular after re-indexing a file from which its
top-level `<-` declaration was deleted. -/
theorem globals_monotone {w : Workspace} {x : String} (hx : x ∈ w.globals)
    (ops : List Op) : x ∈ (runOps w ops).globals := by
  induction ops generalizing w with
  | nil => exact hx
  | cons op rest ih =>
    simp only [runOps, List.foldl_cons]
    have h1 : x ∈ (applyOp w op).globals := by
      cases op with
      | indexFile p r => exact globals_indexFile_mono hx p r
      | build =>
        simp only [applyOp]
        unfold Workspace.buildInheritanceGraph
        rw [globals_fold]
        exact hx
    exact ih h1

theorem globals_monotone_witness :
    "a" ∈ selfW.globals ∧
      "a" ∈ (runOps selfW [.indexFile "/x/scripts/a.nut" emptyRoot]).globals :=
  ⟨by decide, globals_monotone (by decide) _⟩

/-! ## C10: files with no recognized main definition -/

/-- **C10 (counterexample).** A file under `scripts/` whose only inherit
assignment is nested inside a function body — its *top level* has no
assignment of either kind — still gets a `FileEntry`:
`find_inherit_calls` searches the whole tree, not just the top level. -/
theorem indexFile_nested_inherit_creates_entry :
    (∀ c ∈ nestedRoot.childList, c.kind ≠ "update_expression") ∧
      extractScriptPath "/x/scripts/c.nut" ≠ "" ∧
      ((Workspace.empty.indexFile "/x/scripts/c.nut" nestedRoot).get
        "c").isSome = true := by
  refine ⟨by decide, by decide, by decide⟩

theorem globals_foldl_eq_insertName (L : List String) (w : Workspace) :
    (L.foldl Workspace.registerGlobal w).globals =
      L.foldl insertName w.globals := by
  induction L generalizing w with
  | nil => rfl
  | cons y L' ih =>
    simp only [List.foldl_cons]
    rw [ih]
    rfl

/-- **C10 (amended).** If a file's path is under `scripts/` but its parse
tree contains no inherit-call assignment *anywhere* (the search is
recursive, not only top-level) and no top-level table assignment whose
left-hand side equals the file stem, then `index_file` creates or
replaces no `FileEntry` — the files map is exactly as before — while
every top-level `<-` left-hand identifier is still added to `globals`. -/
theorem indexFile_no_main_definition {w : Workspace} {fp : String}
    {root : Node} (hsp : extractScriptPath fp ≠ "")
    (hic : findInheritCalls root = [])
    (hgt : findGlobalTable root (fileStem fp) = none) :
    (w.indexFile fp root).files = w.files ∧
      (w.indexFile fp root).globals =
        (extractGlobalNames root).foldl insertName w.globals := by
  simp only [Workspace.indexFile]
  have hb : (extractScriptPath fp == "") = false := by
    simp [hsp]
  simp only [hb, if_false, hic, hgt]
  exact ⟨files_extractGlobals w root, globals_foldl_eq_insertName _ w⟩

theorem indexFile_no_main_definition_witness :
    extractScriptPath "/x/scripts/d.nut" ≠ "" ∧
      findInheritCalls globalOnlyRoot = [] ∧
      findGlobalTable globalOnlyRoot (fileStem "/x/scripts/d.nut") = none ∧
      ((Workspace.empty.indexFile "/x/scripts/d.nut" globalOnlyRoot).files =
          Workspace.empty.files ∧
        (Workspace.empty.indexFile "/x/scripts/d.nut" globalOnlyRoot).globals =
          (extractGlobalNames globalOnlyRoot).foldl insertName
            Workspace.empty.globals) :=
  ⟨by decide, by rfl, by rfl,
    indexFile_no_main_definition (by decide) (by rfl) (by rfl)⟩

/-! ## C7: circular-inheritance diagnostics -/

/-- **C7 (counterexample).** When the resolved parent's `name` equals the
left-hand identifier `C`, the emitted diagnostic's message is
`"'C' cannot inherit from itself"` — no diagnostic stating
"Circular inheritance detected" is produced, contrary to the claim. -/
theorem checkCircular_message_counterexample :
    (selfW.get (stripScriptsOnce selfInheritCall.parentPath)).map
        FileEntry.name = some selfInheritCall.className ∧
      (checkCircularInheritance selfInheritCall selfW).map
        Diagnostic.message = ["'a' cannot inherit from itself"] ∧
      ∀ d ∈ checkCircularInheritance selfInheritCall selfW,
        ¬("Circular inheritance detected".data.isPrefixOf
          d.message.data = true) := by
  refine ⟨by decide, by decide, by decide⟩

/-- **C7 (amended).** For an inherit call whose resolved parent path
exists in the workspace, a diagnostic with code `circular-inheritance` is
emitted exactly when the parent entry's name equals the left-hand
identifier `C` or some entry in the parent's ancestor chain has name `C`;
the message states "Circular inheritance detected" only in the
ancestor case, while the parent-name case says
`"'C' cannot inherit from itself"` (same code, different message). -/
theorem checkCircularInheritance_spec (inh : InheritCall) (w : Workspace)
    {pe : FileEntry}
    (hget : w.get (stripScriptsOnce inh.parentPath) = some pe) :
    ((∃ d ∈ checkCircularInheritance inh w,
        d.code = some "circular-inheritance") ↔
      (pe.name = inh.className ∨
        ∃ a ∈ w.getAncestors (stripScriptsOnce inh.parentPath),
          a.name = inh.className)) ∧
    (pe.name = inh.className →
      (checkCircularInheritance inh w).map Diagnostic.message =
        ["'" ++ inh.className ++ "' cannot inherit from itself"]) ∧
    (pe.name ≠ inh.className →
      ∀ d ∈ checkCircularInheritance inh w,
        d.message = "Circular inheritance detected: '" ++ inh.className
          ++ "' appears in its own ancestor chain") := by
  simp only [checkCircularInheritance]
  rw [hget]
  by_cases hname : pe.name = inh.className
  · have hb : (pe.name == inh.className) = true := by simp [hname]
    simp only [hb, if_true]
    refine ⟨?_, fun _ => by simp, fun hc => absurd hname hc⟩
    constructor
    · intro _
      exact Or.inl hname
    · intro _
      exact ⟨_, List.mem_singleton.mpr rfl, rfl⟩
  · have hb : (pe.name == inh.className) = false := by simp [hname]
    simp only [hb, Bool.false_eq_true, if_false]
    by_cases hanc : (w.getAncestors (stripScriptsOnce inh.parentPath)).any
        (fun a => a.name == inh.className)
    · simp only [hanc, if_true]
      refine ⟨?_, fun hc => absurd hc hname, fun _ d hd => ?_⟩
      · constructor
        · intro _
          refine Or.inr ?_
          rcases List.any_eq_true.mp hanc with ⟨a, ha, hae⟩
          exact ⟨a, ha, by simpa using hae⟩
        · intro _
          exact ⟨_, List.mem_singleton.mpr rfl, rfl⟩
      · simp only [List.mem_singleton] at hd
        rw [hd]
    · simp only [hanc, Bool.false_eq_true, if_false]
      refine ⟨?_, fun hc => absurd hc hname, fun _ d hd => absurd hd (by simp)⟩
      constructor
      · intro ⟨d, hd, _⟩
        exact absurd hd (by simp)
      · rintro (h1 | ⟨a, ha, hae⟩)
        · exact absurd h1 hname
        · exact absurd (List.any_eq_true.mpr ⟨a, ha, by simp [hae]⟩) hanc

theorem checkCircularInheritance_spec_witness :
    selfW.get (stripScriptsOnce selfInheritCall.parentPath) =
        some selfEntry ∧
      (((∃ d ∈ checkCircularInheritance selfInheritCall selfW,
          d.code = some "circular-inheritance") ↔
        (selfEntry.name = selfInheritCall.className ∨
          ∃ a ∈ selfW.getAncestors
              (stripScriptsOnce selfInheritCall.parentPath),
            a.name = selfInheritCall.className)) ∧
      (selfEntry.name = selfInheritCall.className →
        (checkCircularInheritance selfInheritCall selfW).map
            Diagnostic.message =
          ["'" ++ selfInheritCall.className
            ++ "' cannot inherit from itself"]) ∧
      (selfEntry.name ≠ selfInheritCall.className →
        ∀ d ∈ checkCircularInheritance selfInheritCall selfW,
          d.message = "Circular inheritance detected: '"
            ++ selfInheritCall.className
            ++ "' appears in its own ancestor chain")) :=
  ⟨by decide, checkCircularInheritance_spec selfInheritCall selfW (by decide)⟩

/-! ## C6: `check_identifier` -/

/-- **C6 (counterexample).** The built-in check runs before the locals
check: for an identifier named `inherit` that is also a local, no
diagnostic is emitted but no use is recorded either, contrary to the
claim's "when X is in the context's locals, a use of X is recorded". -/
theorem checkIdentifier_builtin_local_counterexample :
    shouldSkipIdentifier inhSite = false ∧
      inhSite.node.text ∈ inhCtx.locals ∧
      (checkIdentifier none inhSite inhCtx).2 = [] ∧
      inhSite.node.text ∉ (checkIdentifier none inhSite inhCtx).1.references :=
  ⟨by rfl, by decide, by rfl, by decide⟩

/-- **C6 (amended).** For an identifier the resolver classifies as a
reference: the "Undeclared variable" error is emitted iff the name is not
built-in, not a local, not a supplied workspace global, and not the
callee of a call expression while `has_parent` is set; and when the name
is *not built-in* and is a local, a use is recorded and no diagnostic is
emitted (a built-in name that is also a local is skipped before the
locals check records anything). -/
theorem checkIdentifier_spec (g : Option (List String)) (site : IdentSite)
    (ctx : ResolverContext) (hskip : shouldSkipIdentifier site = false) :
    ((∃ d ∈ (checkIdentifier g site ctx).2,
        d.message = "Undeclared variable '" ++ site.node.text ++ "'") ↔
      (site.node.text ∉ BUILTINS ∧ site.node.text ∉ ctx.locals ∧
        (∀ gs, g = some gs → site.node.text ∉ gs) ∧
        ¬(ctx.hasParent = true ∧ isFunctionCall site = true))) ∧
    ((site.node.text ∉ BUILTINS ∧ site.node.text ∈ ctx.locals) →
      ((checkIdentifier g site ctx).1.references =
          insertName ctx.references site.node.text ∧
        (checkIdentifier g site ctx).2 = [])) := by
  simp only [checkIdentifier, hskip, Bool.false_eq_true, if_false]
  by_cases hb : site.node.text ∈ BUILTINS
  · rw [if_pos hb]
    refine ⟨⟨fun ⟨d, hd, _⟩ => absurd hd (by simp),
      fun ⟨hnb, _⟩ => absurd hb hnb⟩, fun ⟨hnb, _⟩ => absurd hb hnb⟩
  · rw [if_neg hb]
    by_cases hl : site.node.text ∈ ctx.locals
    · rw [if_pos hl]
      refine ⟨⟨fun ⟨d, hd, _⟩ => absurd hd (by simp),
        fun ⟨_, hnl, _⟩ => absurd hl hnl⟩, fun _ => ⟨rfl, rfl⟩⟩
    · rw [if_neg hl]
      by_cases hg : (match g with
          | some gs => decide (site.node.text ∈ gs)
          | none => false) = true
      · rw [if_pos hg]
        refine ⟨⟨fun ⟨d, hd, _⟩ => absurd hd (by simp), ?_⟩,
          fun ⟨_, hl2⟩ => absurd hl2 hl⟩
        rintro ⟨_, _, hgs, _⟩
        rcases g with _ | gs
        · simp at hg
        · simp only [decide_eq_true_eq] at hg
          exact absurd hg (hgs gs rfl)
      · rw [if_neg hg]
        by_cases hc : (ctx.hasParent && isFunctionCall site) = true
        · rw [if_pos hc]
          refine ⟨⟨fun ⟨d, hd, _⟩ => absurd hd (by simp), ?_⟩,
            fun ⟨_, hl2⟩ => absurd hl2 hl⟩
          rintro ⟨_, _, _, hnc⟩
          simp only [Bool.and_eq_true] at hc
          exact absurd ⟨hc.1, hc.2⟩ hnc
        · rw [if_neg hc]
          refine ⟨⟨fun _ => ⟨hb, hl, ?_, ?_⟩, fun _ => ?_⟩,
            fun ⟨_, hl2⟩ => absurd hl2 hl⟩
          · intro gs hgs
            rw [hgs] at hg
            simpa using hg
          · rintro ⟨h1, h2⟩
            exact hc (by simp [h1, h2])
          · exact ⟨_, List.mem_singleton.mpr rfl, rfl⟩

theorem checkIdentifier_spec_witness :
    shouldSkipIdentifier inhSite = false ∧
      (((∃ d ∈ (checkIdentifier none inhSite inhCtx).2,
          d.message = "Undeclared variable '" ++ inhSite.node.text ++ "'") ↔
        (inhSite.node.text ∉ BUILTINS ∧ inhSite.node.text ∉ inhCtx.locals ∧
          (∀ gs, (none : Option (List String)) = some gs →
            inhSite.node.text ∉ gs) ∧
          ¬(inhCtx.hasParent = true ∧ isFunctionCall inhSite = true))) ∧
      ((inhSite.node.text ∉ BUILTINS ∧ inhSite.node.text ∈ inhCtx.locals) →
        ((checkIdentifier none inhSite inhCtx).1.references =
            insertName inhCtx.references inhSite.node.text ∧
          (checkIdentifier none inhSite inhCtx).2 = []))) :=
  ⟨by rfl, checkIdentifier_spec none inhSite inhCtx (by rfl)⟩

/-! ## C5: hook-method validation -/

theorem foldl_push_filter {α β : Type _} (p : α → Bool) (d : α → β) :
    ∀ (l : List α) (acc : List β),
      l.foldl (fun bs a => if p a then bs ++ [d a] else bs) acc =
        acc ++ (l.filter p).map d := by
  intro l
  induction l with
  | nil => intro acc; simp
  | cons a rest ih =>
    intro acc
    simp only [List.foldl_cons, List.filter_cons]
    by_cases hp : p a
    · simp [hp, ih]
    · simp [hp, ih]

/-- **C5.** For a hook whose target resolves and whose hook function has
a first parameter `p`: the method-not-found diagnostics are exactly one
per member access in the hook function whose base equals `p`, whose
member name is not `SuperName`, and whose member the target (with its
ancestors) lacks; accesses with a different base never contribute. -/
theorem validateHookMethods_spec (hook : HookCall) (w : Workspace)
    {te : FileEntry} {pname : String}
    (hget : w.get hook.targetPath = some te)
    (hp : hook.hookParamName = some pname) :
    validateHookMethods hook w =
      ((findMemberAccesses hook.hookFunction).filter
        (fun a => a.base == pname && !(a.memberName == "SuperName") &&
          !(w.hasMember hook.targetPath a.memberName))).map
        (hookMethodDiag w hook.targetPath te.name) := by
  simp only [validateHookMethods]
  rw [hget, hp]
  dsimp only
  have key : ∀ (l : List MemberAccess) (acc : List Diagnostic),
      l.foldl
        (fun diags access =>
          if access.base == pname then
            if access.memberName == "SuperName" then diags
            else if !(w.hasMember hook.targetPath access.memberName) then
              diags ++ [hookMethodDiag w hook.targetPath te.name access]
            else diags
          else diags) acc =
        acc ++ ((l.filter
          (fun a => a.base == pname && !(a.memberName == "SuperName") &&
            !(w.hasMember hook.targetPath a.memberName))).map
          (hookMethodDiag w hook.targetPath te.name)) := by
    intro l
    induction l with
    | nil => intro acc; simp
    | cons a rest ih =>
      intro acc
      simp only [List.foldl_cons, List.filter_cons]
      by_cases h1 : (a.base == pname) = true
      · rw [if_pos h1]
        by_cases h2 : (a.memberName == "SuperName") = true
        · rw [if_pos h2]
          have hpred : (a.base == pname && !(a.memberName == "SuperName") &&
              !(w.hasMember hook.targetPath a.memberName)) = false := by
            simp [h2]
          rw [ih acc, hpred]
          simp only [Bool.false_eq_true, if_false]
        · rw [if_neg h2]
          by_cases h3 : (!(w.hasMember hook.targetPath a.memberName)) = true
          · rw [if_pos h3]
            have hpred : (a.base == pname &&
                !(a.memberName == "SuperName") &&
                !(w.hasMember hook.targetPath a.memberName)) = true := by
              simp only [Bool.and_eq_true]
              exact ⟨⟨h1, by simpa using h2⟩, h3⟩
            rw [ih (acc ++ _), hpred]
            simp
          · rw [if_neg h3]
            have h3b : (w.hasMember hook.targetPath a.memberName) = true := by
              simpa using h3
            have hpred : (a.base == pname &&
                !(a.memberName == "SuperName") &&
                !(w.hasMember hook.targetPath a.memberName)) = false := by
              simp [h3b]
            rw [ih acc, hpred]
            simp only [Bool.false_eq_true, if_false]
      · rw [if_neg h1]
        have h1b : (a.base == pname) = false := by simpa using h1
        have hpred : (a.base == pname && !(a.memberName == "SuperName") &&
            !(w.hasMember hook.targetPath a.memberName)) = false := by
          simp [h1b]
        rw [ih acc, hpred]
        simp only [Bool.false_eq_true, if_false]
  rw [key]
  simp

theorem validateHookMethods_spec_witness :
    actorHumanW.get actorHook.targetPath = some actorEntry ∧
      actorHook.hookParamName = some "o" ∧
      validateHookMethods actorHook actorHumanW =
        ((findMemberAccesses actorHook.hookFunction).filter
          (fun a => a.base == "o" && !(a.memberName == "SuperName") &&
            !(actorHumanW.hasMember actorHook.targetPath a.memberName))).map
          (hookMethodDiag actorHumanW actorHook.targetPath
            actorEntry.name) :=
  ⟨by decide, by rfl,
    validateHookMethods_spec actorHook actorHumanW (by decide) (by rfl)⟩

end SquirrelLsp
